import Mathlib

/-!
# Verification of the Attendance-Tracker name-reconciliation core

Shallow embedding of the name-normalization and reconciliation engine of
`src/app.py` (functions `normalize_name`, `pairwise_match` and the helper
`allocate_from_list`), together with theorems settling the specification
claims about it.

Modelling conventions:
* Python `str` is Lean `String` (a list of unicode characters).
* Python `float` scores and cutoffs are modelled as exact rationals `ℚ`;
  the `"%.2f"` float rendering is modelled by round-half-to-even rounding
  of the rational to two decimals.
* The pool `unmatched_total_indices` is a CPython `set` of the roster
  indices `0..n-1`; for such sets (small ints, inserted in ascending
  order) CPython iterates in ascending numeric order, so the pool is
  modelled as a list of indices kept in ascending order, and `list(...)`
  iteration is iteration over that list.
* `difflib.SequenceMatcher` is modelled without its `autojunk` heuristic,
  which only activates for strings of length ≥ 200 (names are far
  shorter); with no junk, `find_longest_match` returns the longest common
  substring of the two windows, ties resolved by least start in `a`,
  then least start in `b`, exactly as its documentation states.
* `unicodedata.normalize("NFKD", s).encode("ascii","ignore")` is modelled
  by a character-level fold: ASCII characters map to themselves, a table
  covers the precomposed Latin-1 letters (whose NFKD decomposition is a
  base ASCII letter followed by combining marks that the ascii-ignore
  encoding drops) and the no-break space, and any other non-ASCII
  character is dropped (ascii-ignore with no ASCII decomposition).
-/

namespace AttendanceTracker

/-- Python whitespace for `str.strip` / `str.split()` / regex `\s`
(ASCII range): space, tab, newline, carriage return, vertical tab,
form feed. -/
def pyWS (c : Char) : Bool :=
  c = ' ' ∨ c = '\t' ∨ c = '\n' ∨ c = '\r' ∨ c = '\x0b' ∨ c = '\x0c'

/-- Python regex `\w` over the ASCII range (the strings reaching the
punctuation step are pure ASCII): letters, digits, underscore. -/
def pyWordChar (c : Char) : Bool :=
  (65 ≤ c.toNat ∧ c.toNat ≤ 90) ∨ (97 ≤ c.toNat ∧ c.toNat ≤ 122) ∨
    (48 ≤ c.toNat ∧ c.toNat ≤ 57) ∨ c.toNat = 95

/-- Python `str.strip()`: drop leading and trailing whitespace. -/
def pyStrip (l : List Char) : List Char :=
  (l.dropWhile pyWS).reverse.dropWhile pyWS |>.reverse

/-- NFKD-decomposition table entries for non-ASCII characters whose
decomposition starts with an ASCII character: precomposed Latin-1
letters map to their base letter (the combining marks are dropped by
the ascii-ignore encoding), and the no-break space maps to a space. -/
def nfkdTable (c : Char) : List Char :=
  match c with
  | 'á' | 'à' | 'â' | 'ä' | 'ã' | 'å' => ['a']
  | 'Á' | 'À' | 'Â' | 'Ä' | 'Ã' | 'Å' => ['A']
  | 'é' | 'è' | 'ê' | 'ë' => ['e']
  | 'É' | 'È' | 'Ê' | 'Ë' => ['E']
  | 'í' | 'ì' | 'î' | 'ï' => ['i']
  | 'Í' | 'Ì' | 'Î' | 'Ï' => ['I']
  | 'ó' | 'ò' | 'ô' | 'ö' | 'õ' => ['o']
  | 'Ó' | 'Ò' | 'Ô' | 'Ö' | 'Õ' => ['O']
  | 'ú' | 'ù' | 'û' | 'ü' => ['u']
  | 'Ú' | 'Ù' | 'Û' | 'Ü' => ['U']
  | 'ñ' => ['n']
  | 'Ñ' => ['N']
  | 'ç' => ['c']
  | 'Ç' => ['C']
  | 'ý' | 'ÿ' => ['y']
  | ' ' => [' ']
  | _ => []

/-- One character of
`unicodedata.normalize("NFKD", s).encode("ascii", "ignore")`:
ASCII characters survive unchanged, table entries decompose to their
ASCII base, all other non-ASCII characters are dropped. -/
def nfkdAscii (c : Char) : List Char :=
  if c.toNat < 128 then [c] else nfkdTable c

/-- The substitution `re.sub(r"[^\w\s]", " ", s)`: every character that is neither a
word character nor whitespace becomes a single space. -/
def punctSub (l : List Char) : List Char :=
  l.map (fun c => if pyWordChar c ∨ pyWS c then c else ' ')

/-- Python `str.split()` on a character list: whitespace-delimited words,
empty words dropped. `acc` accumulates the current word reversed. -/
def pySplitAux : List Char → List Char → List (List Char)
  | [], acc => if acc = [] then [] else [acc.reverse]
  | c :: l, acc =>
      if pyWS c then
        if acc = [] then pySplitAux l [] else acc.reverse :: pySplitAux l []
      else
        pySplitAux l (c :: acc)

def pySplit (l : List Char) : List (List Char) := pySplitAux l []

/-- Join a word list with single spaces (`" ".join(...)`). -/
def joinSp : List (List Char) → List Char
  | [] => []
  | [w] => w
  | w :: ws => w ++ ' ' :: joinSp ws

/-- The collapse `" ".join(s.split())`: collapse whitespace runs to single spaces and
trim. -/
def collapseWS (l : List Char) : List Char :=
  joinSp (pySplit l)

/-- The salutation alternatives of `r"^(mr|ms|mrs|miss|dr|prof|sir)\s+"`,
in the source's order (regex alternation tries them left to right). -/
def salutations : List (List Char) :=
  [['m','r'], ['m','s'], ['m','r','s'], ['m','i','s','s'],
   ['d','r'], ['p','r','o','f'], ['s','i','r']]

/-- Try one regex alternative at the start of the string: the
alternative must be a prefix and must be followed by at least one
whitespace character; the greedy `\s+` consumes the whole whitespace
run, and the match is replaced by the empty string. -/
def trySalutation (a l : List Char) : Option (List Char) :=
  if a.isPrefixOf l then
    let r := l.drop a.length
    match r with
    | [] => none
    | c :: _ => if pyWS c then some (r.dropWhile pyWS) else none
  else none

/-- The substitution `re.sub(r"^(mr|ms|mrs|miss|dr|prof|sir)\s+", "", s)`: the `^`
anchor allows at most one match, at position 0, using the first
alternative that completes a match. -/
def applySalutations : List (List Char) → List Char → List Char
  | [], l => l
  | a :: rest, l =>
      match trySalutation a l with
      | some r => r
      | none => applySalutations rest l

def stripSalutation (l : List Char) : List Char :=
  applySalutations salutations l

/-- The function `normalize_name` from `src/app.py` (lines 33-49): strip, NFKD + ascii
fold, lowercase, punctuation to spaces, whitespace collapse, leading
salutation removal. The `s is None` guard is unreachable for string
input and is not modelled. -/
def normalize_name (s : String) : String :=
  let t := pyStrip s.data
  if t = [] then "" else
  let t := (t.map nfkdAscii).flatten
  let t := t.map Char.toLower
  let t := punctSub t
  let t := collapseWS t
  let t := stripSalutation t
  ⟨t⟩

/-! ## difflib.SequenceMatcher, modelled without the autojunk heuristic -/

/-- Length of the matching run of `a`/`b` starting at positions `i`/`j`,
with at most `fuel` remaining positions of the `a`-window and the
`b`-window clipped at `bhi`. -/
def runLenAux (a b : List Char) (bhi : ℕ) : ℕ → ℕ → ℕ → ℕ
  | 0, _, _ => 0
  | fuel + 1, i, j =>
      if j < bhi ∧ a.getD i ' ' = b.getD j ' ' then
        runLenAux a b bhi fuel (i + 1) (j + 1) + 1
      else 0

/-- Length of the matching run of `a`/`b` starting at positions `i`/`j`,
clipped to the windows ending at `ahi`/`bhi` (the remaining `a`-window
`ahi - i` bounds the run, so it serves as structural fuel). -/
def runLen (a b : List Char) (ahi bhi : ℕ) (i j : ℕ) : ℕ :=
  runLenAux a b bhi (ahi - i) i j

/-- The search `find_longest_match(alo, ahi, blo, bhi)` with no junk: the longest
matching block between `a[alo:ahi]` and `b[blo:bhi]`; among blocks of
maximal size the one starting earliest in `a`, then earliest in `b`,
wins (enforced by the strict `>` in the fold over ascending `(i, j)`).
Returns `(besti, bestj, bestsize)`. -/
def longestMatch (a b : List Char) (alo ahi blo bhi : ℕ) : ℕ × ℕ × ℕ :=
  ((List.range' alo (ahi - alo)).flatMap
      (fun i => (List.range' blo (bhi - blo)).map (fun j => (i, j)))).foldl
    (fun best ij =>
      let k := runLen a b ahi bhi ij.1 ij.2
      if best.2.2 < k then (ij.1, ij.2, k) else best)
    (alo, blo, 0)

/-- Total size of all matching blocks (`get_matching_blocks`): recursive
divide around the longest match. `fuel` only bounds the recursion depth;
`(ahi - alo) + (bhi - blo) + 1` always suffices because each recursive
window is strictly smaller. -/
def matchSum (a b : List Char) : ℕ → ℕ → ℕ → ℕ → ℕ → ℕ
  | 0, _, _, _, _ => 0
  | fuel + 1, alo, ahi, blo, bhi =>
      let m := longestMatch a b alo ahi blo bhi
      if m.2.2 = 0 then 0
      else
        matchSum a b fuel alo m.1 blo m.2.1 + m.2.2 +
          matchSum a b fuel (m.1 + m.2.2) ahi (m.2.1 + m.2.2) bhi

/-- The similarity `SequenceMatcher(None, a, b).ratio()`: `2*M / (len(a)+len(b))`, and
`1.0` when both strings are empty. -/
def ratioQ (a b : List Char) : ℚ :=
  let la := a.length
  let lb := b.length
  if la + lb = 0 then 1
  else mkRat (2 * matchSum a b (la + lb + 1) 0 la 0 lb) (la + lb)

/-- The bound `quick_ratio()`: twice the multiset intersection size over the total
length (an upper bound on `ratio()`). -/
def quickRatioQ (a b : List Char) : ℚ :=
  let la := a.length
  let lb := b.length
  if la + lb = 0 then 1
  else mkRat (2 * (a.dedup.map (fun c => min (a.count c) (b.count c))).sum) (la + lb)

/-- The bound `real_quick_ratio()`: `2*min(la, lb) / (la+lb)` (an upper bound on
`ratio()`). -/
def realQuickRatioQ (a b : List Char) : ℚ :=
  let la := a.length
  let lb := b.length
  if la + lb = 0 then 1
  else mkRat (2 * min la lb) (la + lb)

/-! ## The reconciliation engine (`pairwise_match`) -/

/-- Tokenization used by the token-overlap stage: `set(n.split())`,
modelled as the duplicate-free list of words. -/
def tokenSet (s : String) : List String :=
  ((pySplit s.data).map (fun w => (⟨w⟩ : String))).dedup

/-- Token-overlap score of one candidate: `max(coverage, jaccard)` with
`coverage = |inter| / max(1, |p_tokens|)` and
`jaccard = |inter| / |p_tokens ∪ t_tokens|`. -/
def tokScore (pt tt : List String) : ℚ :=
  let inter := (pt.filter (fun w => tt.contains w)).length
  let coverage : ℚ := mkRat inter (max 1 pt.length)
  let jaccard : ℚ := mkRat inter ((pt ++ tt).dedup.length)
  max coverage jaccard

/-- The lookup `norm_to_indices[nm]`: all roster indices whose normalized name is
`nm`, in ascending order (the dict lists are filled by ascending index).
`n` is the roster length. -/
def normIndices (norms : List String) (nm : String) : List ℕ :=
  (List.range norms.length).filter (fun i => norms.getD i "" = nm)

/-- The helper `allocate_from_list`: first index in the list that is still in the
pool (`None` modelled as `none`). -/
def allocate_from_list (pool : List ℕ) (lst : List ℕ) : Option ℕ :=
  lst.find? (fun i => pool.contains i)

/-- Stage 1 (exact): look up `p_norm` in `norm_to_indices` and allocate
the first still-unallocated index. Falls through (`none`) when the
normalized name is absent or every index with it is already taken. -/
def exactStage (norms : List String) (pool : List ℕ) (pnorm : String) : Option ℕ :=
  allocate_from_list pool (normIndices norms pnorm)

/-- The scan of stage 2 (token-overlap): fold over the pool in ascending
order tracking `(best_idx, best_score)`, starting from `(None, 0.0)`;
candidates with an empty token set on either side are skipped; a
candidate replaces the best only with a strictly greater score. -/
def tokenBest (toks : List (List String)) (ptoks : List String)
    (pool : List ℕ) : Option ℕ × ℚ :=
  pool.foldl
    (fun best t =>
      let tt := toks.getD t []
      if tt = [] ∨ ptoks = [] then best
      else
        let score := tokScore ptoks tt
        if best.2 < score then (some t, score) else best)
    (none, 0)

/-- Stage 2 (token-overlap): allocate the best candidate when one was
found and its score reaches the cutoff. -/
def tokenStage (toks : List (List String)) (ptoks : List String)
    (pool : List ℕ) (cutoff : ℚ) : Option (ℕ × ℚ) :=
  match tokenBest toks ptoks pool with
  | (some i, score) => if cutoff ≤ score then some (i, score) else none
  | (none, _) => none

/-- The scan of stage 3 (character similarity): fold over the pool in
ascending order tracking `(best_idx, best_ratio)` of
`SequenceMatcher(None, p_norm, t_norm).ratio()`; candidates with an
empty normalized name are skipped. -/
def fuzzyBest (norms : List String) (pnorm : String)
    (pool : List ℕ) : Option ℕ × ℚ :=
  pool.foldl
    (fun best t =>
      let tnorm := norms.getD t ""
      if tnorm = "" then best
      else
        let r := ratioQ pnorm.data tnorm.data
        if best.2 < r then (some t, r) else best)
    (none, 0)

/-- Stage 3 (fuzzy): allocate the best candidate when the best ratio
reaches `fuzzy_cutoff` and a candidate was found. -/
def fuzzyStage (norms : List String) (pnorm : String)
    (pool : List ℕ) (cutoff : ℚ) : Option (ℕ × ℚ) :=
  match fuzzyBest norms pnorm pool with
  | (some i, r) => if cutoff ≤ r then some (i, r) else none
  | (none, _) => none

/-- The filter of `get_close_matches(word, possibilities, n=1, cutoff=0.6)`:
a possibility `x` survives when `real_quick_ratio`, `quick_ratio` and
`ratio` (with `seq1 = x`, `seq2 = word`) all reach the cutoff. -/
def closeCandidates (pnorm : String) (cands : List String) : List String :=
  cands.filter (fun x =>
    mkRat 3 5 ≤ realQuickRatioQ x.data pnorm.data ∧
    mkRat 3 5 ≤ quickRatioQ x.data pnorm.data ∧
    mkRat 3 5 ≤ ratioQ x.data pnorm.data)

/-- Python `str` comparison: code-point lexicographic order. -/
def pyStrLt : List Char → List Char → Bool
  | [], [] => false
  | [], _ :: _ => true
  | _ :: _, [] => false
  | c :: l, d :: m =>
      if c.toNat < d.toNat then true
      else if d.toNat < c.toNat then false
      else pyStrLt l m

/-- The selection `heapq.nlargest(1, result)` on pairs `(ratio, x)`: the maximum under
the lexicographic order on `(ℚ, str)` (Python compares the tuples, so
equal ratios are broken by the larger string). -/
def closeBest (pnorm : String) : List String → Option String
  | [] => none
  | x :: rest =>
      match closeBest pnorm rest with
      | none => some x
      | some y =>
          if ratioQ y.data pnorm.data < ratioQ x.data pnorm.data ∨
              (ratioQ y.data pnorm.data = ratioQ x.data pnorm.data ∧ pyStrLt y.data x.data) then
            some x
          else some y

/-- Stage 4 (close-match fallback): run `get_close_matches` over the
normalized names of the pool, then allocate the first pool index whose
normalized name equals the returned string. -/
def closeStage (norms : List String) (pnorm : String)
    (pool : List ℕ) : Option ℕ :=
  match closeBest pnorm (closeCandidates pnorm (pool.map (fun i => norms.getD i ""))) with
  | none => none
  | some w => pool.find? (fun i => norms.getD i "" = w)

/-- Two-decimal formatting (percent-f with precision 2) for a nonnegative rational (every stage score is
nonnegative): round `100*q` half to even — the rounding of float
formatting — then print with two decimal digits. -/
def fmt2 (q : ℚ) : String :=
  let n100 := 100 * q.num.toNat
  let d := q.den
  let fl := n100 / d
  let rem := n100 % d
  let r : ℕ :=
    if d < 2 * rem then fl + 1
    else if 2 * rem < d then fl
    else if fl % 2 = 0 then fl else fl + 1
  toString (r / 100) ++ "." ++ (if r % 100 < 10 then "0" else "") ++ toString (r % 100)

/-- State of the reconciliation loop: the pool of still-unallocated
roster indices (ascending), the matched pairs
`(present_index, total_index, method)` and the `not_found_present`
originals, both in creation order. -/
structure MatchState where
  pool : List ℕ
  matched : List (ℕ × ℕ × String)
  notFound : List String
deriving Repr, DecidableEq

/-- The body of the `for p_idx, p_row in present.iterrows()` loop of
`pairwise_match`: the four-stage cascade for one present record. -/
def processPresent (norms : List String) (toks : List (List String))
    (fuzzy_cutoff token_cutoff : ℚ) (s : MatchState)
    (pidx : ℕ) (porig : String) : MatchState :=
  let pnorm := normalize_name porig
  if pnorm = "" then
    { s with notFound := s.notFound ++ [porig] }
  else
    match exactStage norms s.pool pnorm with
    | some i =>
        { pool := s.pool.erase i,
          matched := s.matched ++ [(pidx, i, "exact")],
          notFound := s.notFound }
    | none =>
    match tokenStage toks (tokenSet pnorm) s.pool token_cutoff with
    | some (i, score) =>
        { pool := s.pool.erase i,
          matched := s.matched ++ [(pidx, i, "token-match:" ++ fmt2 score)],
          notFound := s.notFound }
    | none =>
    match fuzzyStage norms pnorm s.pool fuzzy_cutoff with
    | some (i, r) =>
        { pool := s.pool.erase i,
          matched := s.matched ++ [(pidx, i, "fuzzy:" ++ fmt2 r)],
          notFound := s.notFound }
    | none =>
    match closeStage norms pnorm s.pool with
    | some i =>
        { pool := s.pool.erase i,
          matched := s.matched ++ [(pidx, i, "close-match")],
          notFound := s.notFound }
    | none =>
        { s with notFound := s.notFound ++ [porig] }

/-- The present-record loop, threading the state through the present
names in input order. -/
def runLoop (norms : List String) (toks : List (List String))
    (fuzzy_cutoff token_cutoff : ℚ) :
    List String → ℕ → MatchState → MatchState
  | [], _, s => s
  | p :: rest, pidx, s =>
      runLoop norms toks fuzzy_cutoff token_cutoff rest (pidx + 1)
        (processPresent norms toks fuzzy_cutoff token_cutoff s pidx p)

/-- The returned dictionary of `pairwise_match`. `absentees` is the list
of still-unallocated roster indices in ascending order (the rows of
`absentees_df`). -/
structure Report where
  total_count : ℕ
  present_records : ℕ
  matched_count : ℕ
  absentees_count : ℕ
  absentees : List ℕ
  not_found_present : List String
  matched_pairs : List (ℕ × ℕ × String)
deriving Repr, DecidableEq

/-- The engine `pairwise_match(total_df, present_df, ...)` of `src/app.py`
(lines 61-179), with the two datasets reduced to their designated name
columns (the caller resolves the columns; `astype(str)` is the identity
on strings). -/
def pairwise_match (total present : List String)
    (fuzzy_cutoff token_jaccard_cutoff : ℚ) : Report :=
  let norms := total.map normalize_name
  let toks := norms.map tokenSet
  let init : MatchState :=
    { pool := List.range total.length, matched := [], notFound := [] }
  let final := runLoop norms toks fuzzy_cutoff token_jaccard_cutoff present 0 init
  { total_count := total.length,
    present_records := present.length,
    matched_count := final.matched.length,
    absentees_count := final.pool.length,
    absentees := final.pool,
    not_found_present := final.notFound,
    matched_pairs := final.matched }

/-- Number of allocations whose method came from the token-overlap
stage. -/
def countTokenMatches (r : Report) : ℕ :=
  (r.matched_pairs.filter (fun pr => "token-match:".data.isPrefixOf pr.2.2.data)).length

/-- Number of allocations whose method came from the fuzzy stage. -/
def countFuzzyMatches (r : Report) : ℕ :=
  (r.matched_pairs.filter (fun pr => "fuzzy:".data.isPrefixOf pr.2.2.data)).length

/-! ## Helper lemmas about `find?` on ascending lists -/

theorem find?_some_of_mem {α : Type} {q : α → Bool} :
    ∀ {l : List α} {j : α}, j ∈ l → q j = true → ∃ i, l.find? q = some i := by
  intro l
  induction l with
  | nil => intro j h; cases h
  | cons x xs ih =>
      intro j hj hq
      by_cases hx : q x = true
      · exact ⟨x, by simp [List.find?, hx]⟩
      · rcases List.mem_cons.mp hj with hj | hj
        · exact absurd hq (by simpa [hj] using hx)
        · obtain ⟨i, hi⟩ := ih hj hq
          exact ⟨i, by simp [List.find?, Bool.eq_false_iff.mpr hx, hi]⟩

theorem find?_least {q : ℕ → Bool} :
    ∀ {l : List ℕ}, l.Pairwise (· ≤ ·) → ∀ {i}, l.find? q = some i →
      ∀ k ∈ l, q k = true → i ≤ k := by
  intro l
  induction l with
  | nil => intro _ i h; cases h
  | cons x xs ih =>
      intro hp i hfind k hk hq
      rcases List.pairwise_cons.mp hp with ⟨hx_le, hxs⟩
      by_cases hx : q x = true
      · have hi : i = x := by
          have : some x = some i := by simpa [List.find?, hx] using hfind
          exact (Option.some.inj this).symm
        subst hi
        rcases List.mem_cons.mp hk with hk | hk
        · exact le_of_eq hk.symm
        · exact hx_le k hk
      · have hfind' : xs.find? q = some i := by
          simpa [List.find?, Bool.eq_false_iff.mpr hx] using hfind
        rcases List.mem_cons.mp hk with hk | hk
        · exact absurd hq (by simpa [hk] using hx)
        · exact ih hxs hfind' k hk hq

theorem normIndices_mem {norms : List String} {nm : String} {i : ℕ} :
    i ∈ normIndices norms nm ↔ i < norms.length ∧ norms.getD i "" = nm := by
  simp [normIndices, List.mem_filter, List.mem_range, decide_eq_true_eq]

theorem normIndices_sorted (norms : List String) (nm : String) :
    (normIndices norms nm).Pairwise (· ≤ ·) := by
  exact (List.pairwise_lt_range _).filter _ |>.imp le_of_lt

/-- Characterization of `exactStage`: a returned index is in the pool, has
the looked-up normalized name, and is the least pool index with it. -/
theorem exactStage_spec {norms : List String} {pool : List ℕ} {pnorm : String} {i : ℕ}
    (h : exactStage norms pool pnorm = some i) :
    i ∈ pool ∧ i < norms.length ∧ norms.getD i "" = pnorm ∧
      (∀ k ∈ pool, k < norms.length → norms.getD k "" = pnorm → i ≤ k) := by
  have hmem : i ∈ normIndices norms pnorm := List.mem_of_find?_eq_some h
  have hqi : pool.contains i = true := List.find?_some h
  rcases normIndices_mem.mp hmem with ⟨hlt, hnm⟩
  refine ⟨by simpa [List.contains] using hqi, hlt, hnm, ?_⟩
  intro k hkpool hklen hknm
  exact find?_least (normIndices_sorted norms pnorm) h k
    (normIndices_mem.mpr ⟨hklen, hknm⟩) (by simpa [List.contains] using hkpool)

/-- Success of `exactStage`: it succeeds whenever some pool index carries the wanted
normalized name. -/
theorem exactStage_isSome {norms : List String} {pool : List ℕ} {pnorm : String} {j : ℕ}
    (hj : j ∈ pool) (hlen : j < norms.length) (hnm : norms.getD j "" = pnorm) :
    ∃ i, exactStage norms pool pnorm = some i :=
  find?_some_of_mem (normIndices_mem.mpr ⟨hlen, hnm⟩) (by simpa [List.contains] using hj)

/-! ## The best-candidate fold shared by the token and fuzzy stages -/

/-- Abstract form of the scan loops of stages 2 and 3: skip guarded
candidates, replace the best only on a strictly greater score. -/
def bestFold (guard : ℕ → Bool) (score : ℕ → ℚ)
    (l : List ℕ) (acc : Option ℕ × ℚ) : Option ℕ × ℚ :=
  l.foldl
    (fun best t =>
      if guard t then best
      else if best.2 < score t then (some t, score t) else best)
    acc

theorem bestFold_score_mono (guard : ℕ → Bool) (score : ℕ → ℚ) :
    ∀ (l : List ℕ) (acc : Option ℕ × ℚ), acc.2 ≤ (bestFold guard score l acc).2 := by
  intro l
  induction l with
  | nil => intro acc; simp [bestFold]
  | cons t rest ih =>
      intro acc
      by_cases hg : guard t = true
      · simpa [bestFold, hg] using ih acc
      · by_cases hlt : acc.2 < score t
        · calc acc.2 ≤ score t := le_of_lt hlt
            _ ≤ _ := by simpa [bestFold, hg, hlt] using ih (some t, score t)
        · simpa [bestFold, hg, hlt] using ih acc

theorem bestFold_eq_or_improves (guard : ℕ → Bool) (score : ℕ → ℚ) :
    ∀ (l : List ℕ) (acc : Option ℕ × ℚ),
      bestFold guard score l acc = acc ∨
      ∃ t ∈ l, guard t = false ∧ bestFold guard score l acc = (some t, score t) ∧
        acc.2 < score t := by
  intro l
  induction l with
  | nil => intro acc; left; simp [bestFold]
  | cons t rest ih =>
      intro acc
      by_cases hg : guard t = true
      · rcases ih acc with h | ⟨u, hu, hgu, hres, hlt⟩
        · left; simpa [bestFold, hg] using h
        · right; exact ⟨u, List.mem_cons_of_mem _ hu, hgu,
            by simpa [bestFold, hg] using hres, hlt⟩
      · have hg' : guard t = false := Bool.eq_false_iff.mpr hg
        by_cases hlt : acc.2 < score t
        · rcases ih (some t, score t) with h | ⟨u, hu, hgu, hres, hlt'⟩
          · right
            exact ⟨t, List.mem_cons_self .., hg',
              by simpa [bestFold, hg', hlt] using h, hlt⟩
          · right
            refine ⟨u, List.mem_cons_of_mem _ hu, hgu,
              by simpa [bestFold, hg', hlt] using hres, lt_trans hlt ?_⟩
            simpa using hlt'
        · rcases ih acc with h | ⟨u, hu, hgu, hres, hlt'⟩
          · left; simpa [bestFold, hg', hlt] using h
          · right; exact ⟨u, List.mem_cons_of_mem _ hu, hgu,
              by simpa [bestFold, hg', hlt] using hres, hlt'⟩

theorem bestFold_ub (guard : ℕ → Bool) (score : ℕ → ℚ) :
    ∀ (l : List ℕ) (acc : Option ℕ × ℚ),
      ∀ t ∈ l, guard t = false → score t ≤ (bestFold guard score l acc).2 := by
  intro l
  induction l with
  | nil => intro acc t ht; cases ht
  | cons u rest ih =>
      intro acc t ht hgt
      rcases List.mem_cons.mp ht with ht | ht
      · subst ht
        have step : score t ≤ (if guard t = true then acc
            else if acc.2 < score t then (some t, score t) else acc).2 := by
          simp only [hgt]
          by_cases hlt : acc.2 < score t
          · simp [hlt]
          · simpa [hlt] using le_of_not_lt hlt
        calc score t ≤ _ := step
          _ ≤ _ := by
            by_cases hlt : acc.2 < score t
            · simpa [bestFold, hgt, hlt] using
                bestFold_score_mono guard score rest (some t, score t)
            · simpa [bestFold, hgt, hlt] using bestFold_score_mono guard score rest acc
      · by_cases hg : guard u = true
        · simpa [bestFold, hg] using ih acc t ht hgt
        · have hg' : guard u = false := Bool.eq_false_iff.mpr hg
          by_cases hlt : acc.2 < score u
          · simpa [bestFold, hg', hlt] using ih (some u, score u) t ht hgt
          · simpa [bestFold, hg', hlt] using ih acc t ht hgt

/-- First-seen tie-breaking: on an ascending pool, the fold's winner has
the least index among candidates achieving the final score. -/
theorem bestFold_first (guard : ℕ → Bool) (score : ℕ → ℚ) :
    ∀ (l : List ℕ) (acc : Option ℕ × ℚ),
      l.Pairwise (· < ·) →
      (∀ j, acc.1 = some j → ∀ t ∈ l, j ≤ t) →
      ∀ i q, bestFold guard score l acc = (some i, q) →
      ∀ t ∈ l, guard t = false → score t = q → i ≤ t := by
  intro l
  induction l with
  | nil => intro acc _ _ i q h t ht; cases ht
  | cons u rest ih =>
      intro acc hp hacc i q hres t ht hgt hsc
      rcases List.pairwise_cons.mp hp with ⟨hu_lt, hrest⟩
      by_cases hg : guard u = true
      · have hres' : bestFold guard score rest acc = (some i, q) := by
          simpa [bestFold, hg] using hres
        rcases List.mem_cons.mp ht with ht | ht
        · rw [ht] at hgt; simp [hgt] at hg
        · exact ih acc hrest (fun j hj t' ht' => hacc j hj t' (List.mem_cons_of_mem _ ht'))
            i q hres' t ht hgt hsc
      · have hg' : guard u = false := Bool.eq_false_iff.mpr hg
        by_cases hlt : acc.2 < score u
        · have hres' : bestFold guard score rest (some u, score u) = (some i, q) := by
            simpa [bestFold, hg', hlt] using hres
          rcases List.mem_cons.mp ht with ht | ht
          · rw [ht] at hgt hsc ⊢
            rcases bestFold_eq_or_improves guard score rest (some u, score u) with
              heq | ⟨v, _, _, hv, hltv⟩
            · rw [heq] at hres'
              have : some u = some i := congrArg Prod.fst hres'
              exact le_of_eq (Option.some.inj this).symm
            · rw [hv] at hres'
              have hqv : some v = some i ∧ score v = q := Prod.mk.inj hres'
              have hq : score u < q := hqv.2 ▸ (by simpa using hltv)
              exact absurd hsc (ne_of_lt hq)
          · exact ih (some u, score u) hrest
              (fun j hj t' ht' => by
                have hju : j = u := (Option.some.inj hj).symm
                exact hju ▸ le_of_lt (hu_lt t' ht'))
              i q hres' t ht hgt hsc
        · have hres' : bestFold guard score rest acc = (some i, q) := by
            simpa [bestFold, hg', hlt] using hres
          rcases List.mem_cons.mp ht with ht | ht
          · rw [ht] at hgt hsc ⊢
            have hle : score u ≤ acc.2 := le_of_not_lt hlt
            rcases bestFold_eq_or_improves guard score rest acc with heq | ⟨v, _, _, hv, hltv⟩
            · rw [heq] at hres'
              have : acc.1 = some i := congrArg Prod.fst hres'
              exact hacc i this u (List.mem_cons_self ..)
            · rw [hv] at hres'
              have hqv : score v = q := (Prod.mk.inj hres').2
              have hq : acc.2 < q := hqv ▸ hltv
              exact absurd hsc (ne_of_lt (lt_of_le_of_lt hle hq))
          · exact ih acc hrest
              (fun j hj t' ht' => hacc j hj t' (List.mem_cons_of_mem _ ht'))
              i q hres' t ht hgt hsc

/-- The token-stage scan is an instance of the abstract best-candidate
fold. -/
theorem tokenBest_eq_bestFold (toks : List (List String)) (ptoks : List String)
    (pool : List ℕ) :
    tokenBest toks ptoks pool =
      bestFold (fun t => decide (toks.getD t [] = [] ∨ ptoks = []))
        (fun t => tokScore ptoks (toks.getD t [])) pool (none, 0) := by
  unfold tokenBest bestFold
  congr 1
  funext best t
  by_cases h : toks.getD t [] = [] ∨ ptoks = [] <;> simp [h]

/-- The fuzzy-stage scan is an instance of the abstract best-candidate
fold. -/
theorem fuzzyBest_eq_bestFold (norms : List String) (pnorm : String)
    (pool : List ℕ) :
    fuzzyBest norms pnorm pool =
      bestFold (fun t => decide (norms.getD t "" = ""))
        (fun t => ratioQ pnorm.data (norms.getD t "").data) pool (none, 0) := by
  unfold fuzzyBest bestFold
  congr 1
  funext best t
  by_cases h : norms.getD t "" = "" <;> simp [h]

/-- Characterization of a successful token-stage scan: the winner is a
pool candidate with nonempty token sets on both sides, its score is the
reported one and positive, no candidate beats it, and (on an ascending
pool) ties go to the least roster index. -/
theorem tokenBest_spec {toks : List (List String)} {ptoks : List String}
    {pool : List ℕ} {i : ℕ} {q : ℚ}
    (hsort : pool.Pairwise (· < ·))
    (h : tokenBest toks ptoks pool = (some i, q)) :
    i ∈ pool ∧ toks.getD i [] ≠ [] ∧ ptoks ≠ [] ∧
      q = tokScore ptoks (toks.getD i []) ∧ 0 < q ∧
      (∀ t ∈ pool, toks.getD t [] ≠ [] → tokScore ptoks (toks.getD t []) ≤ q) ∧
      (∀ t ∈ pool, toks.getD t [] ≠ [] → tokScore ptoks (toks.getD t []) = q → i ≤ t) := by
  rw [tokenBest_eq_bestFold] at h
  have hne : ptoks ≠ [] := by
    rcases bestFold_eq_or_improves _ _ pool ((none : Option ℕ), (0 : ℚ)) with heq | ⟨t, _, hgt, hres, _⟩
    · rw [heq] at h; cases (Prod.mk.inj h).1
    · intro hp
      have := (Prod.mk.inj h).1
      simp [hp] at hgt
  rcases bestFold_eq_or_improves _ _ pool ((none : Option ℕ), (0 : ℚ)) with heq | ⟨t, ht, hgt, hres, hpos⟩
  · rw [heq] at h; cases (Prod.mk.inj h).1
  · rw [hres] at h
    obtain ⟨hti, htq⟩ := Prod.mk.inj h
    have hti' : t = i := Option.some.inj hti
    subst hti'
    have hguard : ¬(toks.getD t [] = [] ∨ ptoks = []) := by simpa using hgt
    refine ⟨ht, fun he => hguard (Or.inl he), hne, htq.symm, htq ▸ hpos, ?_, ?_⟩
    · intro u hu hune
      have hub := bestFold_ub (fun t => decide (toks.getD t [] = [] ∨ ptoks = []))
        (fun t => tokScore ptoks (toks.getD t [])) pool (none, 0) u hu
        (by simp only [decide_eq_false_iff_not, not_or]; exact ⟨hune, hne⟩)
      rw [hres] at hub
      have hub' : tokScore ptoks (toks.getD u []) ≤ tokScore ptoks (toks.getD t []) := hub
      exact htq ▸ hub'
    · intro u hu hune hueq
      exact bestFold_first _ _ pool (none, 0) hsort (by simp) t q
        (by rw [hres, htq]) u hu
        (by simp only [decide_eq_false_iff_not, not_or]; exact ⟨hune, hne⟩) hueq

/-- Characterization of a successful fuzzy-stage scan. -/
theorem fuzzyBest_spec {norms : List String} {pnorm : String}
    {pool : List ℕ} {i : ℕ} {q : ℚ}
    (h : fuzzyBest norms pnorm pool = (some i, q)) :
    i ∈ pool ∧ norms.getD i "" ≠ "" ∧ q = ratioQ pnorm.data (norms.getD i "").data := by
  rw [fuzzyBest_eq_bestFold] at h
  rcases bestFold_eq_or_improves _ _ pool ((none : Option ℕ), (0 : ℚ)) with heq | ⟨t, ht, hgt, hres, _⟩
  · rw [heq] at h; cases (Prod.mk.inj h).1
  · rw [hres] at h
    obtain ⟨hti, htq⟩ := Prod.mk.inj h
    have hti' : t = i := Option.some.inj hti
    subst hti'
    exact ⟨ht, by simpa using hgt, htq.symm⟩

/-- A successful token stage returns a pool candidate whose score meets
the cutoff. -/
theorem tokenStage_spec {toks : List (List String)} {ptoks : List String}
    {pool : List ℕ} {cutoff : ℚ} {i : ℕ} {q : ℚ}
    (h : tokenStage toks ptoks pool cutoff = some (i, q)) :
    tokenBest toks ptoks pool = (some i, q) ∧ cutoff ≤ q := by
  unfold tokenStage at h
  rcases hb : tokenBest toks ptoks pool with ⟨o, sc⟩
  rw [hb] at h
  cases o with
  | none => cases h
  | some j =>
      by_cases hc : cutoff ≤ sc
      · simp only [hc, if_pos] at h
        obtain ⟨h1, h2⟩ := Prod.mk.inj (Option.some.inj h)
        exact ⟨by rw [h1, h2], h2 ▸ hc⟩
      · simp [hc] at h

/-- A successful fuzzy stage returns a pool candidate whose ratio meets
the cutoff. -/
theorem fuzzyStage_spec {norms : List String} {pnorm : String}
    {pool : List ℕ} {cutoff : ℚ} {i : ℕ} {q : ℚ}
    (h : fuzzyStage norms pnorm pool cutoff = some (i, q)) :
    fuzzyBest norms pnorm pool = (some i, q) ∧ cutoff ≤ q := by
  unfold fuzzyStage at h
  rcases hb : fuzzyBest norms pnorm pool with ⟨o, sc⟩
  rw [hb] at h
  cases o with
  | none => cases h
  | some j =>
      by_cases hc : cutoff ≤ sc
      · simp only [hc, if_pos] at h
        obtain ⟨h1, h2⟩ := Prod.mk.inj (Option.some.inj h)
        exact ⟨by rw [h1, h2], h2 ▸ hc⟩
      · simp [hc] at h

/-- Membership-only form of the token-scan characterization (no
sortedness needed). -/
theorem tokenBest_mem {toks : List (List String)} {ptoks : List String}
    {pool : List ℕ} {i : ℕ} {q : ℚ}
    (h : tokenBest toks ptoks pool = (some i, q)) :
    i ∈ pool ∧ toks.getD i [] ≠ [] := by
  rw [tokenBest_eq_bestFold] at h
  rcases bestFold_eq_or_improves _ _ pool ((none : Option ℕ), (0 : ℚ)) with heq | ⟨t, ht, hgt, hres, _⟩
  · rw [heq] at h; cases (Prod.mk.inj h).1
  · rw [hres] at h
    obtain ⟨hti, _⟩ := Prod.mk.inj h
    have hti' : t = i := Option.some.inj hti
    subst hti'
    have : ¬(toks.getD t [] = [] ∨ ptoks = []) := by simpa using hgt
    exact ⟨ht, fun he => this (Or.inl he)⟩

/-- The winning string of `get_close_matches` comes from the filtered
candidate list. -/
theorem closeBest_mem {pnorm : String} :
    ∀ {cands : List String} {w : String}, closeBest pnorm cands = some w → w ∈ cands := by
  intro cands
  induction cands with
  | nil => intro w h; cases h
  | cons x rest ih =>
      intro w h
      unfold closeBest at h
      rcases hr : closeBest pnorm rest with _ | y
      · rw [hr] at h
        dsimp only at h
        exact (Option.some.inj h) ▸ List.mem_cons_self ..
      · rw [hr] at h
        dsimp only at h
        by_cases hcond : ratioQ y.data pnorm.data < ratioQ x.data pnorm.data ∨
            (ratioQ y.data pnorm.data = ratioQ x.data pnorm.data ∧ pyStrLt y.data x.data = true)
        · rw [if_pos hcond] at h
          exact (Option.some.inj h) ▸ List.mem_cons_self ..
        · rw [if_neg hcond] at h
          exact List.mem_cons_of_mem _ (Option.some.inj h ▸ ih hr)

/-- A successful close-match stage allocates a pool index whose
normalized name is nonempty (when the present name's normalized form is
nonempty, the empty string never passes the 0.6 cutoff). -/
theorem closeStage_spec {norms : List String} {pnorm : String} {pool : List ℕ} {i : ℕ}
    (hp : pnorm ≠ "") (h : closeStage norms pnorm pool = some i) :
    i ∈ pool ∧ norms.getD i "" ≠ "" := by
  unfold closeStage at h
  rcases hb : closeBest pnorm (closeCandidates pnorm (pool.map (fun j => norms.getD j ""))) with _ | w
  · rw [hb] at h; cases h
  · rw [hb] at h
    have hifind : i ∈ pool := List.mem_of_find?_eq_some h
    have hiw : norms.getD i "" = w := by
      have := List.find?_some h
      simpa [decide_eq_true_eq] using this
    refine ⟨hifind, ?_⟩
    have hwmem : w ∈ closeCandidates pnorm (pool.map (fun j => norms.getD j "")) :=
      closeBest_mem hb
    have hgate := List.of_mem_filter hwmem
    have hrq : mkRat 3 5 ≤ realQuickRatioQ w.data pnorm.data := by
      simp only [decide_eq_true_eq] at hgate
      exact hgate.1
    intro hnil
    rw [hiw] at hnil
    subst hnil
    have hlb : pnorm.data.length ≠ 0 := by
      intro h0
      exact hp (congrArg String.mk (List.length_eq_zero.mp h0))
    have hzero : realQuickRatioQ "".data pnorm.data = 0 := by
      show realQuickRatioQ [] pnorm.data = 0
      rw [realQuickRatioQ]
      simp [hlb, show pnorm.length ≠ 0 from hlb]
    rw [hzero] at hrq
    exact absurd hrq (by decide)

theorem tokenSet_empty : tokenSet "" = [] := rfl

/-- Token sets indexed through `norms.map tokenSet`. -/
theorem toks_getD (norms : List String) (i : ℕ) :
    (norms.map tokenSet).getD i [] = tokenSet (norms.getD i "") :=
  List.getD_map norms "" tokenSet

/-- Shape of one loop iteration: either some still-unallocated roster
index with a nonempty normalized name is allocated to this present
record (and removed from the pool), or the state is unchanged except
that the original present string joins `not_found_present`. -/
theorem processPresent_cases (norms : List String) (fc tc : ℚ)
    (s : MatchState) (pidx : ℕ) (porig : String) :
    (∃ i m, i ∈ s.pool ∧ norms.getD i "" ≠ "" ∧
      processPresent norms (norms.map tokenSet) fc tc s pidx porig =
        { pool := s.pool.erase i, matched := s.matched ++ [(pidx, i, m)],
          notFound := s.notFound }) ∨
    processPresent norms (norms.map tokenSet) fc tc s pidx porig =
      { pool := s.pool, matched := s.matched, notFound := s.notFound ++ [porig] } := by
  unfold processPresent
  by_cases hpn : normalize_name porig = ""
  · right; rw [if_pos hpn]
  · rw [if_neg hpn]
    rcases hex : exactStage norms s.pool (normalize_name porig) with _ | i
    · rcases htok : tokenStage (norms.map tokenSet) (tokenSet (normalize_name porig))
          s.pool tc with _ | ⟨i, q⟩
      · rcases hfz : fuzzyStage norms (normalize_name porig) s.pool fc with _ | ⟨i, r⟩
        · rcases hcl : closeStage norms (normalize_name porig) s.pool with _ | i
          · right; rfl
          · obtain ⟨hmem, hnorm⟩ := closeStage_spec hpn hcl
            exact Or.inl ⟨i, "close-match", hmem, hnorm, rfl⟩
        · obtain ⟨hbest, _⟩ := fuzzyStage_spec hfz
          obtain ⟨hmem, hnorm, _⟩ := fuzzyBest_spec hbest
          exact Or.inl ⟨i, "fuzzy:" ++ fmt2 r, hmem, hnorm, rfl⟩
      · obtain ⟨hbest, _⟩ := tokenStage_spec htok
        obtain ⟨hmem, htne⟩ := tokenBest_mem hbest
        rw [toks_getD] at htne
        refine Or.inl ⟨i, "token-match:" ++ fmt2 q, hmem, ?_, rfl⟩
        intro hnil
        exact htne (by rw [hnil, tokenSet_empty])
    · obtain ⟨hmem, _, hnm, _⟩ := exactStage_spec hex
      exact Or.inl ⟨i, "exact", hmem, hnm ▸ hpn, rfl⟩

/-- The loop invariant tying the pool, the allocated roster indices and
the processed present indices together. -/
def Inv (n pidx : ℕ) (s : MatchState) : Prop :=
  s.pool.Pairwise (· < ·) ∧
  (∀ i ∈ s.pool, i < n) ∧
  (∀ i, i < n → (i ∈ s.pool ↔ i ∉ s.matched.map (fun t => t.2.1))) ∧
  (s.matched.map (fun t => t.2.1)).Nodup ∧
  (∀ i ∈ s.matched.map (fun t => t.2.1), i < n) ∧
  (s.matched.map (fun t => t.1)).Pairwise (· < ·) ∧
  (∀ x ∈ s.matched.map (fun t => t.1), x < pidx)

theorem processPresent_inv {norms : List String} {fc tc : ℚ}
    {pidx : ℕ} {s : MatchState} {porig : String}
    (h : Inv norms.length pidx s) :
    Inv norms.length (pidx + 1)
      (processPresent norms (norms.map tokenSet) fc tc s pidx porig) := by
  obtain ⟨hpool_sorted, hpool_lt, hiff, hmn, hml, hpf, hpb⟩ := h
  rcases processPresent_cases norms fc tc s pidx porig with ⟨i, m, hmem, _, heq⟩ | heq <;>
    rw [heq]
  · have hpool_nd : s.pool.Nodup := hpool_sorted.imp ne_of_lt
    have hinotm : i ∉ s.matched.map (fun t => t.2.1) :=
      (hiff i (hpool_lt i hmem)).mp hmem
    refine ⟨List.Pairwise.sublist (List.erase_sublist _ _) hpool_sorted,
      fun j hj => hpool_lt j (List.mem_of_mem_erase hj), ?_, ?_, ?_, ?_, ?_⟩
    · intro j hjn
      simp only [List.map_append, List.map_cons, List.map_nil, List.mem_append,
        List.mem_singleton]
      by_cases hji : j = i
      · subst hji
        constructor
        · intro hj; exact absurd hj (hpool_nd.not_mem_erase)
        · intro hj; exact absurd (Or.inr rfl) hj
      · rw [List.mem_erase_of_ne hji]
        rw [hiff j hjn]
        constructor
        · intro hj hor; rcases hor with hor | hor
          · exact hj hor
          · exact hji hor
        · intro hj hm; exact hj (Or.inl hm)
    · simp only [List.map_append, List.map_cons, List.map_nil]
      simp only [List.nodup_append, List.nodup_cons, List.nodup_nil]
      exact ⟨hmn, ⟨by simp, trivial⟩, by simpa using fun hmi => hinotm hmi⟩
    · intro j hj
      simp only [List.map_append, List.map_cons, List.map_nil, List.mem_append,
        List.mem_singleton] at hj
      rcases hj with hj | hj
      · exact hml j hj
      · exact hj ▸ hpool_lt i hmem
    · simp only [List.map_append, List.map_cons, List.map_nil]
      rw [List.pairwise_append]
      exact ⟨hpf, List.pairwise_singleton .., fun a ha b hb =>
        (List.mem_singleton.mp hb) ▸ hpb a ha⟩
    · intro x hx
      simp only [List.map_append, List.map_cons, List.map_nil, List.mem_append,
        List.mem_singleton] at hx
      rcases hx with hx | hx
      · exact Nat.lt_succ_of_lt (hpb x hx)
      · exact hx ▸ Nat.lt_succ_self _
  · exact ⟨hpool_sorted, hpool_lt, hiff, hmn, hml, hpf,
      fun x hx => Nat.lt_succ_of_lt (hpb x hx)⟩

theorem runLoop_inv {norms : List String} {fc tc : ℚ} :
    ∀ (ps : List String) (pidx : ℕ) (s : MatchState),
      Inv norms.length pidx s →
      Inv norms.length (pidx + ps.length)
        (runLoop norms (norms.map tokenSet) fc tc ps pidx s) := by
  intro ps
  induction ps with
  | nil => intro pidx s h; simpa [runLoop] using h
  | cons p rest ih =>
      intro pidx s h
      have hstep := @processPresent_inv norms fc tc pidx s p h
      have := ih (pidx + 1) _ hstep
      simpa [runLoop, Nat.add_assoc, Nat.add_comm, Nat.add_left_comm] using this

/-- Each present record lands in exactly one output bucket, so the
matched and not-found counts always sum to the number of records
processed. -/
theorem runLoop_count (norms : List String) (fc tc : ℚ) :
    ∀ (ps : List String) (pidx : ℕ) (s : MatchState),
      (runLoop norms (norms.map tokenSet) fc tc ps pidx s).matched.length +
        (runLoop norms (norms.map tokenSet) fc tc ps pidx s).notFound.length =
      s.matched.length + s.notFound.length + ps.length := by
  intro ps
  induction ps with
  | nil => intro pidx s; simp [runLoop]
  | cons p rest ih =>
      intro pidx s
      rcases processPresent_cases norms fc tc s pidx p with ⟨i, m, _, _, heq⟩ | heq <;>
        · simp only [runLoop, heq, ih]
          simp only [List.length_append, List.length_cons, List.length_nil]
          omega

/-! ## Branch equations for `processPresent` and stage monotonicity -/

theorem pp_empty (norms : List String) (toks : List (List String)) (fc tc : ℚ)
    (s : MatchState) (pidx : ℕ) (porig : String)
    (hpn : normalize_name porig = "") :
    processPresent norms toks fc tc s pidx porig =
      { pool := s.pool, matched := s.matched, notFound := s.notFound ++ [porig] } := by
  unfold processPresent
  rw [if_pos hpn]

theorem pp_exact (norms : List String) (toks : List (List String)) (fc tc : ℚ)
    (s : MatchState) (pidx : ℕ) (porig : String) (i : ℕ)
    (hpn : normalize_name porig ≠ "")
    (hex : exactStage norms s.pool (normalize_name porig) = some i) :
    processPresent norms toks fc tc s pidx porig =
      { pool := s.pool.erase i, matched := s.matched ++ [(pidx, i, "exact")],
        notFound := s.notFound } := by
  unfold processPresent
  rw [if_neg hpn, hex]

theorem pp_token (norms : List String) (toks : List (List String)) (fc tc : ℚ)
    (s : MatchState) (pidx : ℕ) (porig : String) (i : ℕ) (q : ℚ)
    (hpn : normalize_name porig ≠ "")
    (hex : exactStage norms s.pool (normalize_name porig) = none)
    (htok : tokenStage toks (tokenSet (normalize_name porig)) s.pool tc = some (i, q)) :
    processPresent norms toks fc tc s pidx porig =
      { pool := s.pool.erase i,
        matched := s.matched ++ [(pidx, i, "token-match:" ++ fmt2 q)],
        notFound := s.notFound } := by
  unfold processPresent
  rw [if_neg hpn, hex, htok]

theorem pp_fuzzy (norms : List String) (toks : List (List String)) (fc tc : ℚ)
    (s : MatchState) (pidx : ℕ) (porig : String) (i : ℕ) (r : ℚ)
    (hpn : normalize_name porig ≠ "")
    (hex : exactStage norms s.pool (normalize_name porig) = none)
    (htok : tokenStage toks (tokenSet (normalize_name porig)) s.pool tc = none)
    (hfz : fuzzyStage norms (normalize_name porig) s.pool fc = some (i, r)) :
    processPresent norms toks fc tc s pidx porig =
      { pool := s.pool.erase i,
        matched := s.matched ++ [(pidx, i, "fuzzy:" ++ fmt2 r)],
        notFound := s.notFound } := by
  unfold processPresent
  rw [if_neg hpn, hex, htok, hfz]

theorem pp_close (norms : List String) (toks : List (List String)) (fc tc : ℚ)
    (s : MatchState) (pidx : ℕ) (porig : String) (i : ℕ)
    (hpn : normalize_name porig ≠ "")
    (hex : exactStage norms s.pool (normalize_name porig) = none)
    (htok : tokenStage toks (tokenSet (normalize_name porig)) s.pool tc = none)
    (hfz : fuzzyStage norms (normalize_name porig) s.pool fc = none)
    (hcl : closeStage norms (normalize_name porig) s.pool = some i) :
    processPresent norms toks fc tc s pidx porig =
      { pool := s.pool.erase i, matched := s.matched ++ [(pidx, i, "close-match")],
        notFound := s.notFound } := by
  unfold processPresent
  rw [if_neg hpn, hex, htok, hfz, hcl]

theorem pp_nomatch (norms : List String) (toks : List (List String)) (fc tc : ℚ)
    (s : MatchState) (pidx : ℕ) (porig : String)
    (hpn : normalize_name porig ≠ "")
    (hex : exactStage norms s.pool (normalize_name porig) = none)
    (htok : tokenStage toks (tokenSet (normalize_name porig)) s.pool tc = none)
    (hfz : fuzzyStage norms (normalize_name porig) s.pool fc = none)
    (hcl : closeStage norms (normalize_name porig) s.pool = none) :
    processPresent norms toks fc tc s pidx porig =
      { pool := s.pool, matched := s.matched, notFound := s.notFound ++ [porig] } := by
  unfold processPresent
  rw [if_neg hpn, hex, htok, hfz, hcl]

/-- The candidate scan of the token stage does not depend on the cutoff,
so a success at a higher cutoff is also a success at any lower one. -/
theorem tokenStage_mono {toks : List (List String)} {ptoks : List String}
    {pool : List ℕ} {tc tc' : ℚ} {i : ℕ} {q : ℚ}
    (hle : tc ≤ tc')
    (h : tokenStage toks ptoks pool tc' = some (i, q)) :
    tokenStage toks ptoks pool tc = some (i, q) := by
  obtain ⟨hb, hc⟩ := tokenStage_spec h
  unfold tokenStage
  rw [hb]
  show (if tc ≤ q then some (i, q) else none) = some (i, q)
  rw [if_pos (le_trans hle hc)]

/-- Same for the fuzzy stage. -/
theorem fuzzyStage_mono {norms : List String} {pnorm : String}
    {pool : List ℕ} {fc fc' : ℚ} {i : ℕ} {r : ℚ}
    (hle : fc ≤ fc')
    (h : fuzzyStage norms pnorm pool fc' = some (i, r)) :
    fuzzyStage norms pnorm pool fc = some (i, r) := by
  obtain ⟨hb, hc⟩ := fuzzyStage_spec h
  unfold fuzzyStage
  rw [hb]
  show (if fc ≤ r then some (i, r) else none) = some (i, r)
  rw [if_pos (le_trans hle hc)]

/-! ## Method-string prefix facts -/

theorem isPrefixOf_append_self : ∀ (l s : List Char), l.isPrefixOf (l ++ s) = true
  | [], _ => List.isPrefixOf_nil_left
  | c :: l, s => by
      rw [List.cons_append, List.isPrefixOf_cons₂_self]
      exact isPrefixOf_append_self l s

theorem tokPre_token (s : String) :
    "token-match:".data.isPrefixOf ("token-match:" ++ s).data = true :=
  isPrefixOf_append_self "token-match:".data s.data

theorem tokPre_fuzzy (s : String) :
    "token-match:".data.isPrefixOf ("fuzzy:" ++ s).data = false := rfl

theorem tokPre_exact :
    "token-match:".data.isPrefixOf "exact".data = false := rfl

theorem tokPre_close :
    "token-match:".data.isPrefixOf "close-match".data = false := rfl

theorem fuzPre_fuzzy (s : String) :
    "fuzzy:".data.isPrefixOf ("fuzzy:" ++ s).data = true :=
  isPrefixOf_append_self "fuzzy:".data s.data

theorem fuzPre_token (s : String) :
    "fuzzy:".data.isPrefixOf ("token-match:" ++ s).data = false := rfl

theorem fuzPre_exact :
    "fuzzy:".data.isPrefixOf "exact".data = false := rfl

theorem fuzPre_close :
    "fuzzy:".data.isPrefixOf "close-match".data = false := rfl

/-! ## Claim theorems -/

/-- C1: for every pair of input datasets and thresholds, the report
partitions both inputs: the allocated roster indices are pairwise
distinct (no double-booking), each roster index is allocated exactly
when it is not an absentee, absentees and allocated indices are roster
indices, each present index is allocated at most once, and the number
of matched pairs plus the number of not-found present records equals
the number of present records. -/
theorem partition_invariant (total present : List String) (fc tc : ℚ) :
    ((pairwise_match total present fc tc).matched_pairs.map (fun t => t.2.1)).Nodup ∧
    (∀ i, i < total.length →
      (i ∈ (pairwise_match total present fc tc).matched_pairs.map (fun t => t.2.1) ↔
        i ∉ (pairwise_match total present fc tc).absentees)) ∧
    (∀ i ∈ (pairwise_match total present fc tc).absentees, i < total.length) ∧
    (∀ i ∈ (pairwise_match total present fc tc).matched_pairs.map (fun t => t.2.1),
      i < total.length) ∧
    ((pairwise_match total present fc tc).matched_pairs.map (fun t => t.1)).Nodup ∧
    (∀ x ∈ (pairwise_match total present fc tc).matched_pairs.map (fun t => t.1),
      x < present.length) ∧
    (pairwise_match total present fc tc).matched_pairs.length +
      (pairwise_match total present fc tc).not_found_present.length = present.length := by
  have hlen : (total.map normalize_name).length = total.length := List.length_map ..
  have hinit : Inv (total.map normalize_name).length 0
      ⟨List.range total.length, [], []⟩ := by
    refine ⟨List.pairwise_lt_range _, ?_, ?_, List.nodup_nil, ?_, List.Pairwise.nil, ?_⟩
    · intro i hi; rw [hlen] at *; exact List.mem_range.mp hi
    · intro i hi
      simp only [List.map_nil, List.not_mem_nil, not_false_eq_true, iff_true]
      rw [hlen] at hi
      exact List.mem_range.mpr hi
    · intro i hi; cases hi
    · intro x hx; cases hx
  have hfin := @runLoop_inv (total.map normalize_name) fc tc present 0 _ hinit
  obtain ⟨_, hpool_lt, hiff, hmn, hml, hpf, hpb⟩ := hfin
  have hcount := runLoop_count (total.map normalize_name) fc tc present 0
    ⟨List.range total.length, [], []⟩
  rw [hlen] at hpool_lt hiff hml
  refine ⟨hmn, ?_, hpool_lt, hml, hpf.imp ne_of_lt, ?_, ?_⟩
  · intro i hi
    have hif := hiff i hi
    constructor
    · intro hm hp; exact (hif.mp hp) hm
    · intro hnp; by_contra hm; exact hnp (hif.mpr hm)
  · intro x hx
    simpa using hpb x hx
  · simp only [List.length_nil, Nat.add_zero, Nat.zero_add] at hcount
    exact hcount

/-- C5 (amended): `pairwise_match` performs no threshold validation:
for every pair of thresholds, in range or not, reconciliation runs to
completion and returns a report covering every input record. -/
theorem run_completes_for_any_thresholds (total present : List String) (fc tc : ℚ) :
    (pairwise_match total present fc tc).total_count = total.length ∧
    (pairwise_match total present fc tc).present_records = present.length ∧
    (pairwise_match total present fc tc).matched_count +
      (pairwise_match total present fc tc).not_found_present.length = present.length := by
  refine ⟨rfl, rfl, ?_⟩
  have hcount := runLoop_count (total.map normalize_name) fc tc present 0
    ⟨List.range total.length, [], []⟩
  simp only [List.length_nil, Nat.add_zero, Nat.zero_add] at hcount
  exact hcount

/-- C5 (counterexample to the original claim): with `fuzzyCutoff = 2`,
which lies outside `[0,1]`, no failure is signalled: the run completes
and even produces an allocation. -/
theorem no_threshold_validation :
    ¬((2 : ℚ) ≤ 1) ∧
    pairwise_match ["Alice Kumar"] ["alice kumar"] 2 (mkRat 1 2) =
      { total_count := 1, present_records := 1, matched_count := 1, absentees_count := 0,
        absentees := [], not_found_present := [], matched_pairs := [(0, 0, "exact")] } :=
  ⟨by norm_num, by decide⟩

/-- C2: when a present record's normalized name is nonempty and some
still-unallocated roster record carries exactly that normalized name,
the record is allocated by the exact stage (method `"exact"`, never a
looser stage), and the allocated roster index is the least
still-unallocated index with that normalized name. -/
theorem exact_stage_precedence (norms : List String) (toks : List (List String))
    (fc tc : ℚ) (s : MatchState) (pidx : ℕ) (porig : String) (j : ℕ)
    (hpn : normalize_name porig ≠ "")
    (hj : j ∈ s.pool) (hjlen : j < norms.length)
    (hjnm : norms.getD j "" = normalize_name porig) :
    ∃ i, i ∈ s.pool ∧ norms.getD i "" = normalize_name porig ∧
      (∀ k ∈ s.pool, k < norms.length → norms.getD k "" = normalize_name porig → i ≤ k) ∧
      processPresent norms toks fc tc s pidx porig =
        { pool := s.pool.erase i, matched := s.matched ++ [(pidx, i, "exact")],
          notFound := s.notFound } := by
  obtain ⟨i, hi⟩ := exactStage_isSome hj hjlen hjnm
  obtain ⟨him, _, hinm, hleast⟩ := exactStage_spec hi
  refine ⟨i, him, hinm, fun k hk hkl hknm => hleast k hk hkl hknm, ?_⟩
  unfold processPresent
  rw [if_neg hpn, hi]

theorem exact_stage_precedence_witness :
    (normalize_name "Bob" ≠ "" ∧ 1 ∈ ([0, 1, 2] : List ℕ) ∧
      1 < (["alice", "bob", "bob"] : List String).length ∧
      (["alice", "bob", "bob"] : List String).getD 1 "" = normalize_name "Bob") ∧
    ∃ i, i ∈ ([0, 1, 2] : List ℕ) ∧
      (["alice", "bob", "bob"] : List String).getD i "" = normalize_name "Bob" ∧
      (∀ k ∈ ([0, 1, 2] : List ℕ), k < (["alice", "bob", "bob"] : List String).length →
        (["alice", "bob", "bob"] : List String).getD k "" = normalize_name "Bob" → i ≤ k) ∧
      processPresent ["alice", "bob", "bob"]
          ((["alice", "bob", "bob"] : List String).map tokenSet)
          (mkRat 18 25) (mkRat 1 2) ⟨[0, 1, 2], [], []⟩ 0 "Bob" =
        { pool := ([0, 1, 2] : List ℕ).erase i,
          matched := ([] : List (ℕ × ℕ × String)) ++ [(0, i, "exact")], notFound := [] } :=
  ⟨⟨by decide, by decide, by decide, by decide⟩,
    exact_stage_precedence ["alice", "bob", "bob"]
      ((["alice", "bob", "bob"] : List String).map tokenSet) (mkRat 18 25) (mkRat 1 2)
      ⟨[0, 1, 2], [], []⟩ 0 "Bob" 1 (by decide) (by decide) (by decide) (by decide)⟩

/-- C9: a present record whose normalized form is empty is appended
(with its original string) to `not_found_present`; no allocation is
made and the candidate pool is untouched. -/
theorem empty_present_unmatched (norms : List String) (toks : List (List String))
    (fc tc : ℚ) (s : MatchState) (pidx : ℕ) (porig : String)
    (h : normalize_name porig = "") :
    processPresent norms toks fc tc s pidx porig =
      { pool := s.pool, matched := s.matched, notFound := s.notFound ++ [porig] } := by
  unfold processPresent
  rw [if_pos h]

theorem empty_present_unmatched_witness :
    normalize_name "??" = "" ∧
    processPresent ["alice"] [["alice"]] (mkRat 18 25) (mkRat 1 2)
        ⟨[0], [], []⟩ 0 "??" = { pool := [0], matched := [], notFound := ["??"] } :=
  ⟨by decide, empty_present_unmatched _ _ _ _ _ _ _ (by decide)⟩

/-- Empty-normalized roster records survive every loop iteration. -/
theorem runLoop_empty_norm_stays {norms : List String} {fc tc : ℚ} :
    ∀ (ps : List String) (pidx : ℕ) (s : MatchState) (i : ℕ),
      i ∈ s.pool → norms.getD i "" = "" →
      i ∈ (runLoop norms (norms.map tokenSet) fc tc ps pidx s).pool := by
  intro ps
  induction ps with
  | nil => intro pidx s i hi _; simpa [runLoop] using hi
  | cons p rest ih =>
      intro pidx s i hi hnm
      rcases processPresent_cases norms fc tc s pidx p with ⟨j, m, _, hjnm, heq⟩ | heq <;>
        simp only [runLoop, heq]
      · refine ih _ _ i ?_ hnm
        have hij : i ≠ j := fun hij => hjnm (hij ▸ hnm)
        exact (List.mem_erase_of_ne hij).mpr hi
      · exact ih _ _ i hi hnm

/-- C10: a roster record whose normalized name is empty is never
allocated by any stage, and therefore always ends up in the absentee
list. -/
theorem empty_norm_roster_absent (total present : List String) (fc tc : ℚ) (i : ℕ)
    (hi : i < total.length) (hnorm : normalize_name (total.getD i "") = "") :
    i ∈ (pairwise_match total present fc tc).absentees ∧
      ∀ pr ∈ (pairwise_match total present fc tc).matched_pairs, pr.2.1 ≠ i := by
  have hlen : (total.map normalize_name).length = total.length := List.length_map ..
  have hgd : (total.map normalize_name).getD i "" = normalize_name (total.getD i "") :=
    List.getD_map total "" normalize_name
  have hnorm' : (total.map normalize_name).getD i "" = "" := hgd.trans hnorm
  have hinit : i ∈ (⟨List.range total.length, [], []⟩ : MatchState).pool :=
    List.mem_range.mpr hi
  have hstay := @runLoop_empty_norm_stays (total.map normalize_name) fc tc present 0
    ⟨List.range total.length, [], []⟩ i hinit hnorm'
  have hinitInv : Inv (total.map normalize_name).length 0
      ⟨List.range total.length, [], []⟩ := by
    refine ⟨List.pairwise_lt_range _, ?_, ?_, List.nodup_nil, ?_, List.Pairwise.nil, ?_⟩
    · intro j hj; rw [hlen] at *; exact List.mem_range.mp hj
    · intro j hj
      simp only [List.map_nil, List.not_mem_nil, not_false_eq_true, iff_true]
      rw [hlen] at hj
      exact List.mem_range.mpr hj
    · intro j hj; cases hj
    · intro x hx; cases hx
  obtain ⟨_, _, hiff, _, _, _, _⟩ :=
    @runLoop_inv (total.map normalize_name) fc tc present 0 _ hinitInv
  have hnotm := (hiff i (hlen ▸ hi)).mp hstay
  refine ⟨hstay, ?_⟩
  intro pr hpr hpri
  exact hnotm (List.mem_map.mpr ⟨pr, hpr, hpri⟩)

theorem empty_norm_roster_absent_witness :
    (1 < (["Alice Kumar", "?"] : List String).length ∧
      normalize_name ((["Alice Kumar", "?"] : List String).getD 1 "") = "") ∧
    (1 ∈ (pairwise_match ["Alice Kumar", "?"] ["alice kumar"] (mkRat 18 25) (mkRat 1 2)).absentees ∧
      ∀ pr ∈ (pairwise_match ["Alice Kumar", "?"] ["alice kumar"]
          (mkRat 18 25) (mkRat 1 2)).matched_pairs, pr.2.1 ≠ 1) :=
  ⟨⟨by decide, by decide⟩,
    empty_norm_roster_absent ["Alice Kumar", "?"] ["alice kumar"] (mkRat 18 25) (mkRat 1 2) 1
      (by decide) (by decide)⟩

/-- C8: the token-overlap stage selects the unallocated candidate with
the strictly highest `max(coverage, jaccard)` score; on ties the lowest
roster index wins; the winning score meets the cutoff. The model is a
pure function of its inputs, so repeated runs are identical by
definition (last conjunct). -/
theorem token_stage_argmax (toks : List (List String)) (ptoks : List String)
    (pool : List ℕ) (cutoff : ℚ) (i : ℕ) (q : ℚ)
    (hsort : pool.Pairwise (· < ·))
    (h : tokenStage toks ptoks pool cutoff = some (i, q)) :
    i ∈ pool ∧ q = tokScore ptoks (toks.getD i []) ∧ cutoff ≤ q ∧ 0 < q ∧
      (∀ t ∈ pool, toks.getD t [] ≠ [] → tokScore ptoks (toks.getD t []) ≤ q) ∧
      (∀ t ∈ pool, toks.getD t [] ≠ [] → tokScore ptoks (toks.getD t []) = q → i ≤ t) ∧
      (∀ total present fc tc, pairwise_match total present fc tc =
        pairwise_match total present fc tc) := by
  obtain ⟨hb, hc⟩ := tokenStage_spec h
  obtain ⟨hm, _, _, hq, hpos, hub, htie⟩ := tokenBest_spec hsort hb
  exact ⟨hm, hq, hc, hpos, hub, htie, fun _ _ _ _ => rfl⟩

theorem token_stage_argmax_witness :
    (([0, 1] : List ℕ).Pairwise (· < ·) ∧
      tokenStage [["ali"], ["ali", "kumar"]] ["ali", "kumar"] [0, 1] (mkRat 1 2) =
        some (1, 1)) ∧
    (1 ∈ ([0, 1] : List ℕ) ∧
      (1 : ℚ) = tokScore ["ali", "kumar"] ([["ali"], ["ali", "kumar"]].getD 1 []) ∧
      mkRat 1 2 ≤ (1 : ℚ) ∧ (0 : ℚ) < 1 ∧
      (∀ t ∈ ([0, 1] : List ℕ), [["ali"], ["ali", "kumar"]].getD t [] ≠ [] →
        tokScore ["ali", "kumar"] ([["ali"], ["ali", "kumar"]].getD t []) ≤ 1) ∧
      (∀ t ∈ ([0, 1] : List ℕ), [["ali"], ["ali", "kumar"]].getD t [] ≠ [] →
        tokScore ["ali", "kumar"] ([["ali"], ["ali", "kumar"]].getD t []) = 1 → 1 ≤ t) ∧
      (∀ total present fc tc, pairwise_match total present fc tc =
        pairwise_match total present fc tc)) :=
  ⟨⟨by decide, by decide⟩,
    token_stage_argmax [["ali"], ["ali", "kumar"]] ["ali", "kumar"] [0, 1] (mkRat 1 2) 1 1
      (by decide) (by decide)⟩

/-- C7 (counterexample to the original claim): on the spec's own
Scenario 3 the token-stage allocation's method string is
`"token-match:1.00"`, not `"token:1.00"` — the source prefixes the
method with the literal `token-match:`. -/
theorem token_method_string_counterexample :
    (pairwise_match ["Avesh Sajiwala"] ["avesh"] (mkRat 18 25) (mkRat 1 2)).matched_pairs =
      [(0, 0, "token-match:1.00")] ∧
    ∀ pr ∈ (pairwise_match ["Avesh Sajiwala"] ["avesh"] (mkRat 18 25) (mkRat 1 2)).matched_pairs,
      pr.2.2 ≠ "token:1.00" := by
  constructor
  · decide
  · decide

/-- C7 (amended): every allocation produced by the token-overlap stage
records the method string `"token-match:"` followed by the winning
score rendered with two decimals, and the winning score meets the
cutoff. -/
theorem token_method_string_amended (norms : List String) (toks : List (List String))
    (fc tc : ℚ) (s : MatchState) (pidx : ℕ) (porig : String) (i : ℕ) (q : ℚ)
    (hpn : normalize_name porig ≠ "")
    (hex : exactStage norms s.pool (normalize_name porig) = none)
    (htok : tokenStage toks (tokenSet (normalize_name porig)) s.pool tc = some (i, q)) :
    processPresent norms toks fc tc s pidx porig =
      { pool := s.pool.erase i,
        matched := s.matched ++ [(pidx, i, "token-match:" ++ fmt2 q)],
        notFound := s.notFound } ∧ tc ≤ q := by
  refine ⟨?_, (tokenStage_spec htok).2⟩
  unfold processPresent
  rw [if_neg hpn, hex, htok]

theorem token_method_string_amended_witness :
    (normalize_name "avesh" ≠ "" ∧
      exactStage ["avesh sajiwala"] [0] (normalize_name "avesh") = none ∧
      tokenStage [["avesh", "sajiwala"]] (tokenSet (normalize_name "avesh")) [0] (mkRat 1 2) =
        some (0, 1)) ∧
    (processPresent ["avesh sajiwala"] [["avesh", "sajiwala"]] (mkRat 18 25) (mkRat 1 2)
        ⟨[0], [], []⟩ 0 "avesh" =
      { pool := [], matched := [(0, 0, "token-match:1.00")], notFound := [] } ∧
      mkRat 1 2 ≤ (1 : ℚ)) :=
  ⟨⟨by decide, by decide, by decide⟩,
    token_method_string_amended ["avesh sajiwala"] [["avesh", "sajiwala"]]
      (mkRat 18 25) (mkRat 1 2) ⟨[0], [], []⟩ 0 "avesh" 0 1
      (by decide) (by decide) (by decide)⟩

set_option maxRecDepth 1000000 in
/-- C4 (counterexample to the original claim): raising `tokenCutoff`
from 0.5 to 0.95 (holding `fuzzyCutoff = 0.72` fixed) *increases* the
number of token-stage allocations from 1 to 2 on this input: at the low
cutoff the first present record token-takes roster 0 and the second
consumes roster 1 via the fuzzy stage, starving the third; at the high
cutoff the first record falls through to fuzzy (consuming roster 2) and
the second and third then token-match rosters 0 and 1. -/
theorem token_cutoff_not_monotone :
    mkRat 1 2 ≤ mkRat 19 20 ∧
    countTokenMatches (pairwise_match ["aliicekumar stone", "aliice kumar", "stonejones"]
      ["stone jones", "aliicekumar", "aliice"] (mkRat 18 25) (mkRat 1 2)) = 1 ∧
    countTokenMatches (pairwise_match ["aliicekumar stone", "aliice kumar", "stonejones"]
      ["stone jones", "aliicekumar", "aliice"] (mkRat 18 25) (mkRat 19 20)) = 2 := by
  refine ⟨by decide, ?_, ?_⟩
  · decide
  · decide

theorem countTok_single (total : List String) (p : String) (fc tc : ℚ) :
    countTokenMatches (pairwise_match total [p] fc tc) =
      ((processPresent (total.map normalize_name)
        ((total.map normalize_name).map tokenSet) fc tc
        ⟨List.range total.length, [], []⟩ 0 p).matched.filter
          (fun pr => "token-match:".data.isPrefixOf pr.2.2.data)).length := rfl

theorem countFuz_single (total : List String) (p : String) (fc tc : ℚ) :
    countFuzzyMatches (pairwise_match total [p] fc tc) =
      ((processPresent (total.map normalize_name)
        ((total.map normalize_name).map tokenSet) fc tc
        ⟨List.range total.length, [], []⟩ 0 p).matched.filter
          (fun pr => "fuzzy:".data.isPrefixOf pr.2.2.data)).length := rfl

/-- C4 (amended): for a run over a single present record, raising
`tokenCutoff` (holding `fuzzyCutoff` fixed) never increases the number
of token-stage allocations, and raising `fuzzyCutoff` (holding
`tokenCutoff` fixed) never increases the number of fuzzy-stage
allocations. (With several present records the original claim fails:
see the counterexample — pool interaction between records can create
new loose matches when a threshold is tightened.) -/
theorem cutoff_monotone_single_present (total : List String) (p : String)
    (fc fc' tc tc' : ℚ) :
    (tc ≤ tc' → countTokenMatches (pairwise_match total [p] fc tc') ≤
      countTokenMatches (pairwise_match total [p] fc tc)) ∧
    (fc ≤ fc' → countFuzzyMatches (pairwise_match total [p] fc' tc) ≤
      countFuzzyMatches (pairwise_match total [p] fc tc)) := by
  constructor
  · intro hle
    rw [countTok_single, countTok_single]
    by_cases hpn : normalize_name p = ""
    · rw [pp_empty _ _ _ _ _ _ _ hpn, pp_empty _ _ _ _ _ _ _ hpn]
    · rcases hex : exactStage (total.map normalize_name) (List.range total.length)
          (normalize_name p) with _ | i
      · rcases htokHi : tokenStage ((total.map normalize_name).map tokenSet)
            (tokenSet (normalize_name p)) (List.range total.length) tc' with _ | ⟨i, q⟩
        · have h0 : ((processPresent (total.map normalize_name)
              ((total.map normalize_name).map tokenSet) fc tc'
              ⟨List.range total.length, [], []⟩ 0 p).matched.filter
                (fun pr => "token-match:".data.isPrefixOf pr.2.2.data)).length = 0 := by
            rcases hfz : fuzzyStage (total.map normalize_name) (normalize_name p)
                (List.range total.length) fc with _ | ⟨j, r⟩
            · rcases hcl : closeStage (total.map normalize_name) (normalize_name p)
                  (List.range total.length) with _ | j
              · rw [pp_nomatch _ _ _ _ _ _ _ hpn hex htokHi hfz hcl]
                rfl
              · rw [pp_close _ _ _ _ _ _ _ _ hpn hex htokHi hfz hcl]
                simp [List.filter_cons, tokPre_close]
            · rw [pp_fuzzy _ _ _ _ _ _ _ _ _ hpn hex htokHi hfz]
              simp [List.filter_cons, tokPre_fuzzy]
          rw [h0]
          exact Nat.zero_le _
        · have htokLo := tokenStage_mono hle htokHi
          rw [pp_token _ _ _ _ _ _ _ _ _ hpn hex htokHi,
            pp_token _ _ _ _ _ _ _ _ _ hpn hex htokLo]
      · rw [pp_exact _ _ _ _ _ _ _ _ hpn hex, pp_exact _ _ _ _ _ _ _ _ hpn hex]
  · intro hle
    rw [countFuz_single, countFuz_single]
    by_cases hpn : normalize_name p = ""
    · rw [pp_empty _ _ _ _ _ _ _ hpn, pp_empty _ _ _ _ _ _ _ hpn]
    · rcases hex : exactStage (total.map normalize_name) (List.range total.length)
          (normalize_name p) with _ | i
      · rcases htok : tokenStage ((total.map normalize_name).map tokenSet)
            (tokenSet (normalize_name p)) (List.range total.length) tc with _ | ⟨i, q⟩
        · rcases hfzHi : fuzzyStage (total.map normalize_name) (normalize_name p)
              (List.range total.length) fc' with _ | ⟨i, r⟩
          · have h0 : ((processPresent (total.map normalize_name)
                ((total.map normalize_name).map tokenSet) fc' tc
                ⟨List.range total.length, [], []⟩ 0 p).matched.filter
                  (fun pr => "fuzzy:".data.isPrefixOf pr.2.2.data)).length = 0 := by
              rcases hcl : closeStage (total.map normalize_name) (normalize_name p)
                  (List.range total.length) with _ | j
              · rw [pp_nomatch _ _ _ _ _ _ _ hpn hex htok hfzHi hcl]
                rfl
              · rw [pp_close _ _ _ _ _ _ _ _ hpn hex htok hfzHi hcl]
                simp [List.filter_cons, fuzPre_close]
            rw [h0]
            exact Nat.zero_le _
          · have hfzLo := fuzzyStage_mono hle hfzHi
            rw [pp_fuzzy _ _ _ _ _ _ _ _ _ hpn hex htok hfzHi,
              pp_fuzzy _ _ _ _ _ _ _ _ _ hpn hex htok hfzLo]
        · rw [pp_token _ _ _ _ _ _ _ _ _ hpn hex htok,
            pp_token _ _ _ _ _ _ _ _ _ hpn hex htok]
      · rw [pp_exact _ _ _ _ _ _ _ _ hpn hex, pp_exact _ _ _ _ _ _ _ _ hpn hex]

theorem cutoff_monotone_single_present_witness :
    (mkRat 1 2 ≤ mkRat 3 4 ∧ mkRat 18 25 ≤ mkRat 9 10) ∧
    (countTokenMatches (pairwise_match ["Avesh Sajiwala"] ["avesh"] (mkRat 18 25) (mkRat 3 4)) ≤
      countTokenMatches (pairwise_match ["Avesh Sajiwala"] ["avesh"] (mkRat 18 25) (mkRat 1 2)) ∧
     countFuzzyMatches (pairwise_match ["Avesh Sajiwala"] ["avesh"] (mkRat 9 10) (mkRat 1 2)) ≤
      countFuzzyMatches (pairwise_match ["Avesh Sajiwala"] ["avesh"] (mkRat 18 25) (mkRat 1 2))) :=
  ⟨⟨by decide, by decide⟩,
    (cutoff_monotone_single_present ["Avesh Sajiwala"] "avesh"
        (mkRat 18 25) (mkRat 9 10) (mkRat 1 2) (mkRat 3 4)).1 (by decide),
    (cutoff_monotone_single_present ["Avesh Sajiwala"] "avesh"
        (mkRat 18 25) (mkRat 9 10) (mkRat 1 2) (mkRat 3 4)).2 (by decide)⟩

/-! ## Character classes of the normalizer's output -/

/-- The characters that can appear in a normalized name: lowercase
ASCII letters, digits, underscore, space. -/
def goodChar (c : Char) : Prop :=
  (97 ≤ c.toNat ∧ c.toNat ≤ 122) ∨ (48 ≤ c.toNat ∧ c.toNat ≤ 57) ∨
    c.toNat = 95 ∨ c = ' '

instance : DecidablePred goodChar := fun _ => by unfold goodChar; infer_instance

theorem nfkdTable_ascii (c : Char) : ∀ x ∈ nfkdTable c, x.toNat < 128 := by
  intro x h
  unfold nfkdTable at h
  split at h <;> simp only [List.mem_singleton, List.not_mem_nil] at h <;>
    subst h <;> decide

theorem nfkdAscii_ascii (c : Char) : ∀ x ∈ nfkdAscii c, x.toNat < 128 := by
  intro x h
  unfold nfkdAscii at h
  by_cases hc : c.toNat < 128
  · rw [if_pos hc] at h
    rw [List.mem_singleton.mp h]
    exact hc
  · rw [if_neg hc] at h
    exact nfkdTable_ascii c x h

theorem toNat_ofNat_valid {n : ℕ} (h : n.isValidChar) : (Char.ofNat n).toNat = n := by
  unfold Char.ofNat
  rw [dif_pos h]
  rfl

theorem toLower_not_upper {c : Char} (h : c.toNat < 128) :
    c.toLower.toNat < 128 ∧ ¬(65 ≤ c.toLower.toNat ∧ c.toLower.toNat ≤ 90) := by
  unfold Char.toLower
  by_cases hc : c.toNat ≥ 65 ∧ c.toNat ≤ 90
  · rw [if_pos hc]
    have hv : (c.toNat + 32).isValidChar := Or.inl (by omega)
    rw [toNat_ofNat_valid hv]
    omega
  · rw [if_neg hc]
    exact ⟨h, fun hcc => hc ⟨hcc.1, hcc.2⟩⟩

theorem toLower_eq_self_of_good {c : Char} (h : goodChar c) : c.toLower = c := by
  rcases h with h | h | h | h
  · unfold Char.toLower; rw [if_neg (by omega)]
  · unfold Char.toLower; rw [if_neg (by omega)]
  · unfold Char.toLower; rw [if_neg (by omega)]
  · subst h; decide

/-! ## Structure of `pySplit` and `joinSp` -/

/-- A word list as produced by `pySplit`: no empty word, no whitespace
character inside a word. -/
def GoodWords (ws : List (List Char)) : Prop :=
  ∀ w ∈ ws, w ≠ [] ∧ ∀ c ∈ w, pyWS c = false

theorem pySplitAux_spec :
    ∀ (l acc : List Char), (∀ c ∈ acc, pyWS c = false) →
      ∀ w ∈ pySplitAux l acc, w ≠ [] ∧ ∀ c ∈ w, pyWS c = false ∧ (c ∈ l ∨ c ∈ acc) := by
  intro l
  induction l with
  | nil =>
      intro acc hacc w hw
      unfold pySplitAux at hw
      by_cases ha : acc = []
      · rw [if_pos ha] at hw; cases hw
      · rw [if_neg ha] at hw
        have hwacc : w = acc.reverse := List.mem_singleton.mp hw
        subst hwacc
        refine ⟨fun hnil => ha (by simpa using congrArg List.reverse hnil), ?_⟩
        intro c hc
        have hc' : c ∈ acc := List.mem_reverse.mp hc
        exact ⟨hacc c hc', Or.inr hc'⟩
  | cons d l ih =>
      intro acc hacc w hw
      unfold pySplitAux at hw
      by_cases hd : pyWS d = true
      · rw [if_pos hd] at hw
        by_cases ha : acc = []
        · rw [if_pos ha] at hw
          obtain ⟨hne, hch⟩ := ih [] (by intro c hc; cases hc) w hw
          refine ⟨hne, fun c hc => ?_⟩
          obtain ⟨hws, hmem⟩ := hch c hc
          rcases hmem with hmem | hmem
          · exact ⟨hws, Or.inl (List.mem_cons_of_mem _ hmem)⟩
          · cases hmem
        · rw [if_neg ha] at hw
          rcases List.mem_cons.mp hw with hw | hw
          · subst hw
            refine ⟨fun hnil => ha (by simpa using congrArg List.reverse hnil), ?_⟩
            intro c hc
            have hc' : c ∈ acc := List.mem_reverse.mp hc
            exact ⟨hacc c hc', Or.inr hc'⟩
          · obtain ⟨hne, hch⟩ := ih [] (by intro c hc; cases hc) w hw
            refine ⟨hne, fun c hc => ?_⟩
            obtain ⟨hws, hmem⟩ := hch c hc
            rcases hmem with hmem | hmem
            · exact ⟨hws, Or.inl (List.mem_cons_of_mem _ hmem)⟩
            · cases hmem
      · rw [if_neg hd] at hw
        have hd' : pyWS d = false := Bool.eq_false_iff.mpr hd
        have hacc' : ∀ c ∈ d :: acc, pyWS c = false := by
          intro c hc
          rcases List.mem_cons.mp hc with hc | hc
          · exact hc ▸ hd'
          · exact hacc c hc
        obtain ⟨hne, hch⟩ := ih (d :: acc) hacc' w hw
        refine ⟨hne, fun c hc => ?_⟩
        obtain ⟨hws, hmem⟩ := hch c hc
        rcases hmem with hmem | hmem
        · exact ⟨hws, Or.inl (List.mem_cons_of_mem _ hmem)⟩
        · rcases List.mem_cons.mp hmem with hmem | hmem
          · exact ⟨hws, Or.inl (hmem ▸ List.mem_cons_self ..)⟩
          · exact ⟨hws, Or.inr hmem⟩

theorem pySplit_good (l : List Char) : GoodWords (pySplit l) := by
  intro w hw
  obtain ⟨hne, hch⟩ := pySplitAux_spec l [] (by intro c hc; cases hc) w hw
  exact ⟨hne, fun c hc => (hch c hc).1⟩

theorem pySplit_chars (l : List Char) :
    ∀ w ∈ pySplit l, ∀ c ∈ w, pyWS c = false ∧ c ∈ l := by
  intro w hw c hc
  obtain ⟨_, hch⟩ := pySplitAux_spec l [] (by intro x hx; cases hx) w hw
  obtain ⟨hws, hmem⟩ := hch c hc
  rcases hmem with hmem | hmem
  · exact ⟨hws, hmem⟩
  · cases hmem

theorem joinSp_mem :
    ∀ (ws : List (List Char)) (c : Char), c ∈ joinSp ws → c = ' ' ∨ ∃ w ∈ ws, c ∈ w := by
  intro ws
  induction ws with
  | nil => intro c hc; cases hc
  | cons w ws ih =>
      intro c hc
      cases ws with
      | nil =>
          exact Or.inr ⟨w, List.mem_cons_self .., hc⟩
      | cons v ws' =>
          rw [show joinSp (w :: v :: ws') = w ++ ' ' :: joinSp (v :: ws') from rfl] at hc
          rcases List.mem_append.mp hc with hc | hc
          · exact Or.inr ⟨w, List.mem_cons_self .., hc⟩
          · rcases List.mem_cons.mp hc with hc | hc
            · exact Or.inl hc
            · rcases ih c hc with hc | ⟨u, hu, hcu⟩
              · exact Or.inl hc
              · exact Or.inr ⟨u, List.mem_cons_of_mem _ hu, hcu⟩

/-! ## Structure of the salutation strip -/

theorem trySalutation_some_eq {a l r : List Char} (h : trySalutation a l = some r) :
    r = (l.drop a.length).dropWhile pyWS ∧ a.isPrefixOf l = true ∧
      ∃ d t, l.drop a.length = d :: t ∧ pyWS d = true := by
  unfold trySalutation at h
  by_cases hp : a.isPrefixOf l = true
  · rw [if_pos hp] at h
    rcases hd : l.drop a.length with _ | ⟨d, t⟩
    · rw [hd] at h; cases h
    · rw [hd] at h
      dsimp only at h
      by_cases hws : pyWS d = true
      · rw [if_pos hws] at h
        exact ⟨(Option.some.inj h).symm, hp, d, t, rfl, hws⟩
      · rw [if_neg hws] at h; cases h
  · rw [if_neg hp] at h; cases h

theorem applySalutations_cases :
    ∀ (alts : List (List Char)) (l : List Char),
      applySalutations alts l = l ∨
        ∃ a ∈ alts, trySalutation a l = some (applySalutations alts l) := by
  intro alts
  induction alts with
  | nil => intro l; left; rfl
  | cons a rest ih =>
      intro l
      unfold applySalutations
      rcases h : trySalutation a l with _ | r
      · rcases ih l with h' | ⟨b, hb, hb'⟩
        · left; exact h'
        · right; exact ⟨b, List.mem_cons_of_mem _ hb, hb'⟩
      · right; exact ⟨a, List.mem_cons_self .., h⟩

theorem stripSalutation_subset (l : List Char) : ∀ c ∈ stripSalutation l, c ∈ l := by
  intro c hc
  rcases applySalutations_cases salutations l with h | ⟨a, _, ha⟩
  · unfold stripSalutation at hc
    rw [h] at hc
    exact hc
  · obtain ⟨hr, _, _⟩ := trySalutation_some_eq ha
    unfold stripSalutation at hc
    rw [hr] at hc
    exact (List.drop_sublist _ _).subset ((List.dropWhile_sublist _).subset hc)

/-! ## Every character of a normalized name -/

theorem punctSub_mem {l : List Char} {c : Char} (h : c ∈ punctSub l) :
    c = ' ' ∨ ((pyWordChar c = true ∨ pyWS c = true) ∧ c ∈ l) := by
  unfold punctSub at h
  obtain ⟨d, hd, hdc⟩ := List.mem_map.mp h
  by_cases hcond : pyWordChar d = true ∨ pyWS d = true
  · rw [if_pos hcond] at hdc
    exact Or.inr ⟨hdc ▸ hcond, hdc ▸ hd⟩
  · rw [if_neg hcond] at hdc
    exact Or.inl hdc.symm

theorem flatten_nfkd_ascii {l : List Char} {c : Char}
    (h : c ∈ (l.map nfkdAscii).flatten) : c.toNat < 128 := by
  obtain ⟨sub, hsub, hc⟩ := List.mem_flatten.mp h
  obtain ⟨d, _, hd⟩ := List.mem_map.mp hsub
  exact nfkdAscii_ascii d c (hd ▸ hc)

theorem map_toLower_good {l : List Char} (hl : ∀ x ∈ l, x.toNat < 128) {c : Char}
    (h : c ∈ l.map Char.toLower) :
    c.toNat < 128 ∧ ¬(65 ≤ c.toNat ∧ c.toNat ≤ 90) := by
  obtain ⟨x, hx, hxc⟩ := List.mem_map.mp h
  exact hxc ▸ toLower_not_upper (hl x hx)

/-- Every character of a normalized name is a lowercase ASCII letter, a
digit, an underscore or a space. -/
theorem normalize_chars_good (s : String) : ∀ c ∈ (normalize_name s).data, goodChar c := by
  intro c hc
  unfold normalize_name at hc
  by_cases hnil : pyStrip s.data = []
  · rw [if_pos hnil] at hc
    simp only [String.data] at hc
    cases hc
  · rw [if_neg hnil] at hc
    have hc' : c ∈ stripSalutation (collapseWS (punctSub
        ((((pyStrip s.data).map nfkdAscii).flatten).map Char.toLower))) := hc
    have hc2 := stripSalutation_subset _ _ hc'
    unfold collapseWS at hc2
    rcases joinSp_mem _ _ hc2 with hsp | ⟨w, hw, hcw⟩
    · subst hsp; right; right; right; rfl
    · obtain ⟨hws, hcx⟩ := pySplit_chars _ w hw c hcw
      rcases punctSub_mem hcx with hsp | ⟨hword, hcy⟩
      · exact absurd hws (by rw [hsp]; decide)
      · have hwc : pyWordChar c = true := by
          rcases hword with h | h
          · exact h
          · rw [hws] at h; cases h
        obtain ⟨hlt, hnup⟩ := map_toLower_good
          (fun x hx => flatten_nfkd_ascii hx) hcy
        have hwc' : (65 ≤ c.toNat ∧ c.toNat ≤ 90) ∨ (97 ≤ c.toNat ∧ c.toNat ≤ 122) ∨
            (48 ≤ c.toNat ∧ c.toNat ≤ 57) ∨ c.toNat = 95 := by
          simpa [pyWordChar, decide_eq_true_eq] using hwc
        have hrange : (97 ≤ c.toNat ∧ c.toNat ≤ 122) ∨ (48 ≤ c.toNat ∧ c.toNat ≤ 57) ∨
            c.toNat = 95 := by omega
        rcases hrange with h1 | h1 | h1
        · exact Or.inl h1
        · exact Or.inr (Or.inl h1)
        · exact Or.inr (Or.inr (Or.inl h1))

/-! ## `pySplit` inverts `joinSp` on good word lists -/

theorem pySplitAux_word :
    ∀ (w l acc : List Char), (∀ c ∈ w, pyWS c = false) →
      pySplitAux (w ++ l) acc = pySplitAux l (w.reverse ++ acc) := by
  intro w
  induction w with
  | nil => intro l acc _; simp
  | cons c w' ih =>
      intro l acc hw
      have hc : pyWS c = false := hw c (List.mem_cons_self ..)
      have hstep : pySplitAux (c :: (w' ++ l)) acc = pySplitAux (w' ++ l) (c :: acc) := by
        simp only [pySplitAux]
        rw [if_neg (by simp [hc])]
      rw [List.cons_append, hstep,
        ih l (c :: acc) (fun d hd => hw d (List.mem_cons_of_mem _ hd))]
      congr 1
      simp

theorem joinSp_cons_head :
    ∀ (ws : List (List Char)), GoodWords ws → ws ≠ [] →
      ∃ d t, joinSp ws = d :: t ∧ pyWS d = false := by
  intro ws hg hne
  cases ws with
  | nil => exact absurd rfl hne
  | cons w ws' =>
      obtain ⟨hwne, hwch⟩ := hg w (List.mem_cons_self ..)
      cases w with
      | nil => exact absurd rfl hwne
      | cons d w'' =>
          cases ws' with
          | nil => exact ⟨d, w'', rfl, hwch d (List.mem_cons_self ..)⟩
          | cons v ws'' =>
              exact ⟨d, w'' ++ ' ' :: joinSp (v :: ws''), rfl,
                hwch d (List.mem_cons_self ..)⟩

theorem pySplit_joinSp :
    ∀ (ws : List (List Char)), GoodWords ws → pySplit (joinSp ws) = ws := by
  intro ws
  induction ws with
  | nil => intro _; rfl
  | cons w ws' ih =>
      intro hg
      obtain ⟨hwne, hwch⟩ := hg w (List.mem_cons_self ..)
      cases ws' with
      | nil =>
          show pySplit w = [w]
          unfold pySplit
          have hword := pySplitAux_word w [] [] hwch
          rw [List.append_nil] at hword
          rw [hword, List.append_nil]
          simp only [pySplitAux]
          rw [if_neg (by simp [hwne])]
          simp
      | cons v ws'' =>
          show pySplit (w ++ ' ' :: joinSp (v :: ws'')) = w :: v :: ws''
          unfold pySplit
          rw [pySplitAux_word w _ [] hwch, List.append_nil]
          simp only [pySplitAux]
          rw [if_pos (by decide : pyWS ' ' = true)]
          rw [if_neg (by simp [hwne])]
          rw [List.reverse_reverse]
          congr 1
          exact ih (fun u hu => hg u (List.mem_cons_of_mem _ hu))

theorem collapseWS_joinSp (ws : List (List Char)) (h : GoodWords ws) :
    collapseWS (joinSp ws) = joinSp ws := by
  unfold collapseWS
  rw [pySplit_joinSp ws h]

theorem salutations_good : ∀ a ∈ salutations, a ≠ [] ∧ ∀ c ∈ a, pyWS c = false := by
  decide

/-- Stripping a salutation from a single-space-joined good word list
yields another such list (the word list, or its tail when the first
word is a salutation followed by more words). -/
theorem stripSalutation_goodjoin :
    ∀ (ws : List (List Char)), GoodWords ws →
      ∃ ws', stripSalutation (joinSp ws) = joinSp ws' ∧ GoodWords ws' := by
  intro ws hg
  rcases applySalutations_cases salutations (joinSp ws) with h | ⟨a, ha, htry⟩
  · exact ⟨ws, h, hg⟩
  · obtain ⟨hr, hpre, d, t, hdrop, hws⟩ := trySalutation_some_eq htry
    obtain ⟨hane, hach⟩ := salutations_good a ha
    have hapre : a <+: joinSp ws := List.isPrefixOf_iff_prefix.mp hpre
    cases ws with
    | nil =>
        rw [show joinSp ([] : List (List Char)) = [] from rfl] at hdrop
        simp at hdrop
    | cons w ws₂ =>
        obtain ⟨hwne, hwch⟩ := hg w (List.mem_cons_self ..)
        cases ws₂ with
        | nil =>
            exfalso
            obtain ⟨w₂, hw₂⟩ := hapre
            cases w₂ with
            | nil =>
                rw [show joinSp [w] = w from rfl] at hdrop
                rw [show w = a ++ ([] : List Char) from hw₂.symm] at hdrop
                simp [List.drop_left] at hdrop
            | cons e w₂' =>
                rw [show joinSp [w] = w from rfl] at hdrop
                rw [show w = a ++ e :: w₂' from hw₂.symm, List.drop_left] at hdrop
                have hde : d = e := ((List.cons.inj hdrop).1).symm
                have hew : e ∈ w := by
                  rw [show w = a ++ e :: w₂' from hw₂.symm]
                  exact List.mem_append.mpr (Or.inr (List.mem_cons_self ..))
                rw [hde] at hws
                rw [hwch e hew] at hws
                cases hws
        | cons v ws₃ =>
            have hjoin : joinSp (w :: v :: ws₃) = w ++ ' ' :: joinSp (v :: ws₃) := rfl
            have hwpre : w <+: joinSp (w :: v :: ws₃) := ⟨' ' :: joinSp (v :: ws₃), rfl⟩
            have hequal : a = w → ∃ ws', applySalutations salutations (joinSp (w :: v :: ws₃)) =
                joinSp ws' ∧ GoodWords ws' := by
              intro heq
              refine ⟨v :: ws₃, ?_, fun u hu => hg u (List.mem_cons_of_mem _ hu)⟩
              have hdrop' : (joinSp (w :: v :: ws₃)).drop a.length =
                  ' ' :: joinSp (v :: ws₃) := by
                rw [heq, hjoin]
                exact List.drop_left ..
              rw [hr, hdrop']
              rw [List.dropWhile_cons_of_pos (by decide)]
              obtain ⟨dd, tt, hdd, hddws⟩ := joinSp_cons_head (v :: ws₃)
                (fun u hu => hg u (List.mem_cons_of_mem _ hu)) (by simp)
              rw [hdd]
              rw [List.dropWhile_cons_of_neg (by simp [hddws])]
            rcases List.prefix_or_prefix_of_prefix hapre hwpre with haw | hwa
            · obtain ⟨w₂, hw₂⟩ := haw
              cases w₂ with
              | nil => exact hequal (by simpa using hw₂)
              | cons e w₂' =>
                  exfalso
                  have hjoin' : joinSp (w :: v :: ws₃) =
                      a ++ ((e :: w₂') ++ ' ' :: joinSp (v :: ws₃)) := by
                    rw [hjoin, show w = a ++ e :: w₂' from hw₂.symm]
                    simp
                  rw [hjoin', List.drop_left] at hdrop
                  have hdrop2 : e :: (w₂' ++ ' ' :: joinSp (v :: ws₃)) = d :: t := by
                    simpa using hdrop
                  have hde : d = e := ((List.cons.inj hdrop2).1).symm
                  have hew : e ∈ w := by
                    rw [show w = a ++ e :: w₂' from hw₂.symm]
                    exact List.mem_append.mpr (Or.inr (List.mem_cons_self ..))
                  rw [hde, hwch e hew] at hws
                  cases hws
            · obtain ⟨a', ha'⟩ := hwa
              cases a' with
              | nil =>
                  have hwa' : w = a := by simpa using ha'
                  exact hequal hwa'.symm
              | cons e a'' =>
                  exfalso
                  have ha'pre : (e :: a'') <+: ' ' :: joinSp (v :: ws₃) := by
                    have h1 : (w ++ e :: a'') <+: (w ++ ' ' :: joinSp (v :: ws₃)) := by
                      rw [ha', ← hjoin]
                      exact hapre
                    exact (List.prefix_append_right_inj w).mp h1
                  have he : e = ' ' := (List.cons_prefix_cons.mp ha'pre).1
                  have hsp : (' ' : Char) ∈ a := by
                    rw [← ha', ← he]
                    exact List.mem_append.mpr (Or.inr (List.mem_cons_self ..))
                  have := hach ' ' hsp
                  cases this

/-! ## The normalizer's later stages fix its own output -/

theorem goodChar_ascii {c : Char} (h : goodChar c) : c.toNat < 128 := by
  rcases h with h | h | h | h
  · omega
  · omega
  · omega
  · subst h; decide

theorem nfkdAscii_id {c : Char} (h : c.toNat < 128) : nfkdAscii c = [c] := by
  unfold nfkdAscii
  rw [if_pos h]

theorem flatten_nfkd_id : ∀ {l : List Char}, (∀ c ∈ l, c.toNat < 128) →
    (l.map nfkdAscii).flatten = l := by
  intro l
  induction l with
  | nil => intro _; rfl
  | cons c t ih =>
      intro h
      simp only [List.map_cons, List.flatten_cons]
      rw [nfkdAscii_id (h c (List.mem_cons_self ..)),
        ih (fun d hd => h d (List.mem_cons_of_mem _ hd))]
      rfl

theorem map_toLower_id {l : List Char} (h : ∀ c ∈ l, goodChar c) :
    l.map Char.toLower = l := by
  have : l.map Char.toLower = l.map id :=
    List.map_congr_left (fun c hc => toLower_eq_self_of_good (h c hc))
  rw [this, List.map_id]

theorem punctSub_id {l : List Char} (h : ∀ c ∈ l, goodChar c) : punctSub l = l := by
  unfold punctSub
  have : l.map (fun c => if pyWordChar c ∨ pyWS c then c else ' ') = l.map id := by
    refine List.map_congr_left (fun c hc => ?_)
    rcases h c hc with h1 | h1 | h1 | h1
    · exact if_pos (Or.inl (by unfold pyWordChar; simp only [decide_eq_true_eq]; omega))
    · exact if_pos (Or.inl (by unfold pyWordChar; simp only [decide_eq_true_eq]; omega))
    · exact if_pos (Or.inl (by unfold pyWordChar; simp only [decide_eq_true_eq]; omega))
    · subst h1; exact if_pos (Or.inr (by decide))
  rw [this, List.map_id]

theorem joinSp_rev_head :
    ∀ (ws : List (List Char)), GoodWords ws → ws ≠ [] →
      ∃ d t, (joinSp ws).reverse = d :: t ∧ pyWS d = false := by
  intro ws
  induction ws with
  | nil => intro _ h; exact absurd rfl h
  | cons w ws' ih =>
      intro hg _
      obtain ⟨hwne, hwch⟩ := hg w (List.mem_cons_self ..)
      cases ws' with
      | nil =>
          show ∃ d t, w.reverse = d :: t ∧ _
          rcases hrev : w.reverse with _ | ⟨d, t⟩
          · exact absurd (List.reverse_eq_nil_iff.mp hrev) hwne
          · have hd : d ∈ w := List.mem_reverse.mp (hrev ▸ List.mem_cons_self ..)
            exact ⟨d, t, rfl, hwch d hd⟩
      | cons v ws'' =>
          obtain ⟨d, t, hdt, hdws⟩ :=
            ih (fun u hu => hg u (List.mem_cons_of_mem _ hu)) (by simp)
          refine ⟨d, t ++ ' ' :: w.reverse, ?_, hdws⟩
          rw [show joinSp (w :: v :: ws'') = w ++ ' ' :: joinSp (v :: ws'') from rfl]
          simp [hdt]

theorem pyStrip_joinSp (ws : List (List Char)) (h : GoodWords ws) :
    pyStrip (joinSp ws) = joinSp ws := by
  by_cases hws : ws = []
  · subst hws; rfl
  · obtain ⟨d, t, hdt, hdws⟩ := joinSp_cons_head ws h hws
    obtain ⟨d', t', hdt', hdws'⟩ := joinSp_rev_head ws h hws
    unfold pyStrip
    rw [hdt, List.dropWhile_cons_of_neg (by simp [hdws]), ← hdt]
    rw [hdt', List.dropWhile_cons_of_neg (by simp [hdws']), ← hdt',
      List.reverse_reverse]

/-- The normalizer's output is a single-space join of nonempty
whitespace-free words. -/
theorem normalize_goodjoin (s : String) :
    ∃ ws, (normalize_name s).data = joinSp ws ∧ GoodWords ws := by
  unfold normalize_name
  by_cases hnil : pyStrip s.data = []
  · rw [if_pos hnil]
    exact ⟨[], rfl, fun w hw => absurd hw (List.not_mem_nil w)⟩
  · rw [if_neg hnil]
    obtain ⟨ws', hws', hgood'⟩ := stripSalutation_goodjoin
      (pySplit (punctSub ((((pyStrip s.data).map nfkdAscii).flatten).map Char.toLower)))
      (pySplit_good _)
    refine ⟨ws', ?_, hgood'⟩
    show stripSalutation (collapseWS (punctSub _)) = joinSp ws'
    unfold collapseWS
    exact hws'

/-- A string that is a good word join with good characters and is a
fixed point of the salutation strip is a fixed point of the whole
normalizer. -/
theorem normalize_fixed_of_good (o : String)
    (hjoin : ∃ ws, o.data = joinSp ws ∧ GoodWords ws)
    (hchars : ∀ c ∈ o.data, goodChar c)
    (h : stripSalutation o.data = o.data) :
    normalize_name o = o := by
  obtain ⟨ws, hws, hgood⟩ := hjoin
  have hstrip : pyStrip o.data = o.data := by
    rw [hws]; exact pyStrip_joinSp ws hgood
  unfold normalize_name
  rw [hstrip]
  by_cases hnil : o.data = []
  · rw [if_pos hnil]
    have : (⟨o.data⟩ : String) = ("" : String) := congrArg String.mk hnil
    exact this.symm
  · rw [if_neg hnil]
    show (⟨stripSalutation (collapseWS (punctSub
      (((o.data.map nfkdAscii).flatten).map Char.toLower)))⟩ : String) = o
    rw [flatten_nfkd_id (fun c hc => goodChar_ascii (hchars c hc))]
    rw [map_toLower_id hchars]
    rw [punctSub_id hchars]
    rw [show collapseWS o.data = o.data from by rw [hws]; exact collapseWS_joinSp ws hgood]
    rw [h]

/-! ## C3 and C6 claim theorems -/

/-- C3 (counterexample to the original claim): the normalizer strips
only one leading honorific per call (the regex is anchored at the
start), so a stacked honorific breaks idempotence:
`normalize("mr mr smith") = "mr smith"` but a second application
yields `"smith"`. -/
theorem normalize_not_idempotent :
    normalize_name "mr mr smith" = "mr smith" ∧
    normalize_name (normalize_name "mr mr smith") = "smith" ∧
    normalize_name (normalize_name "mr mr smith") ≠ normalize_name "mr mr smith" := by
  refine ⟨by decide, by decide, by decide⟩

/-- C3 (amended): the normalizer is idempotent on every string whose
normalized form is left unchanged by a second leading-honorific strip
(all other pipeline stages always fix the normalizer's output). -/
theorem normalize_idempotent_of_salutation_fixed (s : String)
    (h : stripSalutation (normalize_name s).data = (normalize_name s).data) :
    normalize_name (normalize_name s) = normalize_name s :=
  normalize_fixed_of_good _ (normalize_goodjoin s) (normalize_chars_good s) h

theorem normalize_idempotent_witness :
    stripSalutation (normalize_name "Dr. Meera Rao").data =
        (normalize_name "Dr. Meera Rao").data ∧
    normalize_name (normalize_name "Dr. Meera Rao") = normalize_name "Dr. Meera Rao" :=
  ⟨by decide, normalize_idempotent_of_salutation_fixed "Dr. Meera Rao" (by decide)⟩

/-- C6 (counterexample to the original claim): the punctuation class
`[^\w\s]` does not match the underscore (`\w` contains it), so an
underscore survives normalization: `normalize("a_b") = "a_b"`, and the
underscore is neither a letter, a digit nor a space. -/
theorem underscore_survives :
    normalize_name "a_b" = "a_b" ∧ '_' ∈ (normalize_name "a_b").data ∧
      ¬('_'.isAlpha ∨ '_'.isDigit ∨ '_' = ' ') := by
  refine ⟨by decide, by decide, by decide⟩

/-- C6 (amended): every character of a normalized name is a lowercase
ASCII letter, a digit, an underscore, or a space — the punctuation step
replaces every character that is not a letter, digit, underscore or
whitespace with a single space. -/
theorem normalize_chars_amended (s : String) :
    ∀ c ∈ (normalize_name s).data, goodChar c :=
  normalize_chars_good s

theorem normalize_chars_amended_witness :
    '_' ∈ (normalize_name "A_b 9!").data ∧ goodChar '_' :=
  ⟨by decide, normalize_chars_amended "A_b 9!" '_' (by decide)⟩

end AttendanceTracker
